import Mathlib

/-!
# Verification of the `perfect-collisions` 2D collision engine

Shallow embedding of the Rust sources (`src/geometry.rs`, `src/object.rs`,
`src/main.rs`) of the `perfect-collisions` repository, together with proofs
and refutations of the frozen specification claims.

Modelling conventions:

* `f32` scalars are modelled by an arbitrary `LinearOrderedField K`
  (instantiated with `ℚ` where concrete evaluation is wanted and with `ℝ`
  where the source uses `cos`, `sin` or `sqrt`); arithmetic is exact, i.e.
  rounding is not modelled.
* The divisions performed by the time-of-impact solver can divide by zero;
  there the source relies on IEEE-754 semantics (`NaN`/`±∞` propagation and
  the fact that every comparison with `NaN` is false).  Those computations
  are modelled by the type `FVal K` below, which adjoins `NaN` and `±∞` to
  `K` with the IEEE rules for the operations actually used.  Signed zero is
  not modelled; the sign of a zero only ever influences the *sign* of an
  infinite quotient here, and both signs of infinity fail the bound checks
  that guard every use, so the observable results agree with IEEE-754.
* Rust `Vec` becomes `List`, in-place mutation becomes functional update,
  field reads through indices use `getD` with a default (the source would
  panic on an out-of-range index; the claims only concern in-range calls).
-/

namespace PC

/-- 2D vector over the scalar type `K`; models `glam::Vec2` (whose `f32`
components are idealised as exact scalars). -/
@[ext]
structure Vec2 (K : Type) where
  x : K
  y : K
deriving DecidableEq, Repr

namespace Vec2

variable {K : Type} [LinearOrderedField K]

instance : Zero (Vec2 K) := ⟨⟨0, 0⟩⟩

instance : Add (Vec2 K) := ⟨fun a b => ⟨a.x + b.x, a.y + b.y⟩⟩

instance : Neg (Vec2 K) := ⟨fun a => ⟨-a.x, -a.y⟩⟩

instance : Sub (Vec2 K) := ⟨fun a b => ⟨a.x - b.x, a.y - b.y⟩⟩

instance : SMul K (Vec2 K) := ⟨fun c a => ⟨c * a.x, c * a.y⟩⟩

instance : AddCommGroup (Vec2 K) where
  add a b := a + b
  zero := 0
  neg a := -a
  sub a b := a - b
  nsmul := nsmulRec
  zsmul := zsmulRec
  add_assoc a b c := Vec2.ext (add_assoc a.x b.x c.x) (add_assoc a.y b.y c.y)
  zero_add a := Vec2.ext (zero_add a.x) (zero_add a.y)
  add_zero a := Vec2.ext (add_zero a.x) (add_zero a.y)
  add_comm a b := Vec2.ext (add_comm a.x b.x) (add_comm a.y b.y)
  neg_add_cancel a := Vec2.ext (neg_add_cancel a.x) (neg_add_cancel a.y)
  sub_eq_add_neg a b := Vec2.ext (sub_eq_add_neg a.x b.x) (sub_eq_add_neg a.y b.y)

instance : Module K (Vec2 K) where
  smul c a := c • a
  one_smul a := Vec2.ext (one_mul a.x) (one_mul a.y)
  mul_smul c d a := Vec2.ext (mul_assoc c d a.x) (mul_assoc c d a.y)
  smul_zero c := Vec2.ext (mul_zero c) (mul_zero c)
  smul_add c a b := Vec2.ext (mul_add c a.x b.x) (mul_add c a.y b.y)
  add_smul c d a := Vec2.ext (add_mul c d a.x) (add_mul c d a.y)
  zero_smul a := Vec2.ext (zero_mul a.x) (zero_mul a.y)

instance : Inhabited (Vec2 K) := ⟨⟨0, 0⟩⟩

/-- `glam::Vec2::dot`. -/
def dot (a b : Vec2 K) : K := a.x * b.x + a.y * b.y

/-- `glam::Vec2::perp`: counter-clockwise perpendicular `(-y, x)`. -/
def perp (a : Vec2 K) : Vec2 K := ⟨-a.y, a.x⟩

/-- `glam::Vec2::perp_dot`, the 2D cross product `a.x*b.y - a.y*b.x`. -/
def cross (a b : Vec2 K) : K := a.x * b.y - a.y * b.x

/-- `glam::Vec2::length_squared`. -/
def length_squared (a : Vec2 K) : K := a.x * a.x + a.y * a.y

end Vec2

/-- The mutable simulation entity (`Object` in `src/object.rs`).  The field
`collided` is referenced by `main.rs` (`object.collided`) although the
struct declaration in `object.rs` omits it; it is included here (with the
spec's collision-count meaning and initial value `0`). -/
structure Object (K : Type) where
  mass : K
  position : Vec2 K
  velocity : Vec2 K
  acceleration : Vec2 K
  rotation : K
  rot_velocity : K
  shape : List (Vec2 K)
  cur_time : K
  updated : ℕ
  collided : ℕ
deriving DecidableEq

namespace Object

variable {K : Type} [LinearOrderedField K]

instance : Inhabited (Object K) := ⟨⟨1, 0, 0, 0, 0, 0, [], 0, 0, 0⟩⟩

/-- `Object::new` (`src/object.rs`): mass 1, zero acceleration, time 0,
stamp 0. -/
def new (position velocity : Vec2 K) (rotation : K) (shape : List (Vec2 K)) :
    Object K :=
  { mass := 1
    position := position
    velocity := velocity
    acceleration := 0
    rotation := rotation
    rot_velocity := 0
    shape := shape
    cur_time := 0
    updated := 0
    collided := 0 }

/-- `Object::update` (`src/object.rs`): explicit-Euler advance to the
absolute time `target_time`.  The source asserts `target_time >= cur_time`
and then performs exactly this arithmetic; the assertion (a fatal
programming-error check) is modelled separately by hypotheses where
relevant. -/
def update (o : Object K) (target_time : K) : Object K :=
  let dt := target_time - o.cur_time
  { o with
    position := o.position + dt • o.velocity
    velocity := o.velocity + dt • o.acceleration
    cur_time := o.cur_time + dt
    updated := o.updated + 1 }

end Object

/-- A spawn request: the data `update_objects` feeds to `Object::new` when
the right mouse button is down (position/velocity/rotation/shape are
produced by input handling and randomness, which are external inputs to the
engine). -/
structure SpawnReq (K : Type) where
  position : Vec2 K
  velocity : Vec2 K
  rotation : K
  shape : List (Vec2 K)

/-- `CollisionSimulator::update_objects` (`src/main.rs` lines 205-229):
drop bodies with more than 100 collisions, advance every remaining body to
`time_elapsed + 0.001`, then append a newly spawned body (if a spawn was
requested). -/
def update_objects {K : Type} [LinearOrderedField K] (objects : List (Object K))
    (time_elapsed : K) (spawn : Option (SpawnReq K)) : List (Object K) :=
  let active := objects.filter fun o => !(decide (100 < o.collided))
  let advanced := active.map fun o => o.update (time_elapsed + 1 / 1000)
  match spawn with
  | some s => advanced ++ [Object.new s.position s.velocity s.rotation s.shape]
  | none => advanced

/-! ## Float values with `NaN` and infinities

The narrow-phase solver (`check_collision`'s inner closure `check`) divides
by quantities that can be zero; the source relies on IEEE-754 `f32`
semantics there.  `FVal K` adjoins `nan` and `±∞` to the exact scalar
type `K`.  Arithmetic on finite values is exact (rounding is not
modelled) and the special values follow IEEE-754.  Signed zeros are not
modelled: a zero denominator of sign `-0.0` would only flip the sign of an
infinite quotient, and either infinity fails the finite-bounds comparisons
that guard every use of these quotients, so `check`'s observable behaviour
is unaffected. -/
inductive FVal (K : Type) where
  | fin (x : K)
  | pinf
  | ninf
  | nan
deriving DecidableEq, Repr

namespace FVal

variable {K : Type} [LinearOrderedField K]

/-- IEEE addition. -/
def add : FVal K → FVal K → FVal K
  | fin a, fin b => fin (a + b)
  | fin _, pinf => pinf
  | fin _, ninf => ninf
  | pinf, fin _ => pinf
  | ninf, fin _ => ninf
  | pinf, pinf => pinf
  | ninf, ninf => ninf
  | pinf, ninf => nan
  | ninf, pinf => nan
  | nan, _ => nan
  | _, nan => nan

/-- IEEE negation. -/
def neg : FVal K → FVal K
  | fin a => fin (-a)
  | pinf => ninf
  | ninf => pinf
  | nan => nan

/-- IEEE subtraction. -/
def sub (a b : FVal K) : FVal K := add a (neg b)

/-- IEEE multiplication (`0 * ∞ = NaN`). -/
def mul : FVal K → FVal K → FVal K
  | fin a, fin b => fin (a * b)
  | fin a, pinf => if a = 0 then nan else if 0 < a then pinf else ninf
  | fin a, ninf => if a = 0 then nan else if 0 < a then ninf else pinf
  | pinf, fin b => if b = 0 then nan else if 0 < b then pinf else ninf
  | ninf, fin b => if b = 0 then nan else if 0 < b then ninf else pinf
  | pinf, pinf => pinf
  | ninf, ninf => pinf
  | pinf, ninf => ninf
  | ninf, pinf => ninf
  | nan, _ => nan
  | _, nan => nan

/-- IEEE division (`0/0 = NaN`, `x/0 = ±∞` by the sign of `x`,
`∞/∞ = NaN`; the unmodelled `-0.0` denominator would only flip the sign of
an infinite quotient). -/
def div : FVal K → FVal K → FVal K
  | fin a, fin b =>
    if b = 0 then (if a = 0 then nan else if 0 < a then pinf else ninf)
    else fin (a / b)
  | fin _, pinf => fin 0
  | fin _, ninf => fin 0
  | pinf, fin b => if 0 ≤ b then pinf else ninf
  | ninf, fin b => if 0 ≤ b then ninf else pinf
  | pinf, pinf => nan
  | pinf, ninf => nan
  | ninf, pinf => nan
  | ninf, ninf => nan
  | nan, _ => nan
  | _, nan => nan

/-- IEEE `<`: every comparison involving `NaN` is false. -/
def flt : FVal K → FVal K → Bool
  | fin a, fin b => decide (a < b)
  | fin _, pinf => true
  | ninf, fin _ => true
  | ninf, pinf => true
  | _, _ => false

/-- IEEE `<=`: every comparison involving `NaN` is false. -/
def fle : FVal K → FVal K → Bool
  | fin a, fin b => decide (a ≤ b)
  | fin _, pinf => true
  | ninf, fin _ => true
  | ninf, pinf => true
  | pinf, pinf => true
  | ninf, ninf => true
  | _, _ => false

end FVal

variable {K : Type} [LinearOrderedField K]

/-! ## Narrow phase: the `check` closure of `check_collision`

`src/main.rs` lines 453-471, with the let-bound intermediate values given
standalone names so that theorems can refer to them. -/
/-- `let slope_1 = (b.y - a.y) / (b.x - a.x)` (float semantics). -/
def slope_1 (a b : Vec2 K) : FVal K := FVal.div (.fin (b.y - a.y)) (.fin (b.x - a.x))

/-- `let y_1 = a.y - a.x * slope_1`. -/
def y_1 (a b : Vec2 K) : FVal K := FVal.sub (.fin a.y) (FVal.mul (.fin a.x) (slope_1 a b))

/-- `let slope_2 = v.y / v.x`. -/
def slope_2 (v : Vec2 K) : FVal K := FVal.div (.fin v.y) (.fin v.x)

/-- `let y_2 = p.y - p.x * slope_2`. -/
def y_2 (p v : Vec2 K) : FVal K := FVal.sub (.fin p.y) (FVal.mul (.fin p.x) (slope_2 v))

/-- `let intercept = (y_2 - y_1) / (slope_1 - slope_2)`: the x-coordinate
of the intersection of the vertex ray with the edge's line. -/
def intercept (p v a b : Vec2 K) : FVal K :=
  FVal.div (FVal.sub (y_2 p v) (y_1 a b)) (FVal.sub (slope_1 a b) (slope_2 v))

/-- `let time = (intercept - p.x) / v.x + cur_time`. -/
def coltime (cur : K) (p v a b : Vec2 K) : FVal K :=
  FVal.add (FVal.div (FVal.sub (intercept p v a b) (.fin p.x)) (.fin v.x)) (.fin cur)

/-- The closure `check` (`src/main.rs` lines 453-471): accept the root if
the intersection x-coordinate lies within the edge's x-bounds and the time
lies strictly between `cur` and `te`.  The source compares the possibly
non-finite `time` with `cur_time` and `self.time_elapsed` directly; a
non-finite `time` fails both strict float comparisons, which the `match`
below reflects, so the returned time is always finite. -/
def check (cur te : K) (p v a b : Vec2 K) : Option K :=
  if FVal.fle (.fin (min a.x b.x)) (intercept p v a b) &&
      FVal.fle (intercept p v a b) (.fin (max a.x b.x)) then
    match coltime cur p v a b with
    | .fin time => if cur < time ∧ time < te then some time else none
    | _ => none
  else none

/-- The payload of a `CollisionInfo` that varies over the (vertex, edge)
minimisation inside one `check_collision` call: the remaining
`CollisionInfo` fields (object ids and stamps) are constant there, so the
derived lexicographic order on `CollisionInfo` restricts to the
lexicographic order on `(time, point_1, line_2)`. -/
structure CollisionData (K : Type) where
  time : K
  point_1 : ℕ
  line_2 : ℕ
deriving DecidableEq, Repr

/-- Strict lexicographic order on `(time, point_1, line_2)`, matching the
derived `PartialOrd`/`Ord` on the source's `CollisionInfo` for fixed ids
and stamps. -/
def CollisionData.ltb (c d : CollisionData K) : Bool :=
  decide (c.time < d.time) ||
    (decide (c.time = d.time) &&
      (decide (c.point_1 < d.point_1) ||
        (decide (c.point_1 = d.point_1) && decide (c.line_2 < d.line_2))))

/-- `Ord::min` on collision candidates (`(*cur_answer).min(candidate)`). -/
def CollisionData.minD (c d : CollisionData K) : CollisionData K :=
  if CollisionData.ltb d c then d else c

/-- The vertex/edge double loop of `check_collision` (`src/main.rs` lines
473-496): try `check` on every (vertex of the sharp body, edge of the
other body) pair in loop order and keep the lexicographically minimal
candidate. -/
def scan_step (cur te : K) (otherPts : List (Vec2 K)) (v : Vec2 K)
    (acc : Option (CollisionData K)) (t : ℕ × Vec2 K × ℕ) :
    Option (CollisionData K) :=
  match check cur te t.2.1 v (otherPts.getD t.2.2 0)
      (otherPts.getD ((t.2.2 + 1) % otherPts.length) 0) with
  | some time =>
    match acc with
    | none => some ⟨time, t.1, t.2.2⟩
    | some c => some (c.minD ⟨time, t.1, t.2.2⟩)
  | none => acc

def collide_scan (cur te : K) (sharpPts otherPts : List (Vec2 K)) (v : Vec2 K) :
    Option (CollisionData K) :=
  (sharpPts.enum.flatMap fun ip =>
      (List.range otherPts.length).map fun j => (ip.1, ip.2, j)).foldl
    (scan_step cur te otherPts v) none

/-! ## Convex hull (`src/geometry.rs` lines 20-52)

The source sorts by `(y, x)`, removes exact duplicates (`Vec::dedup`
removes consecutive equals, which after sorting is all of them), sorts the
tail by the `f32` polar angle `(p - p0).angle() = atan2(p.y - p0.y,
p.x - p0.x)` with Rust's stable `sort_by`, and runs a Graham scan whose pop
condition is `angle_between(last - snd, point - snd) <= 0` with
`angle_between(u, w) = atan2(cross u w, dot u w)`.

The orders are modelled by decidable characterisations of the mathematical
`atan2` comparisons (`atan2` itself is not rational): `atan2` values are
compared first by the quadrant class of the argument and within the
classes that are genuine angle ranges by the sign of the cross product.
Rust's stable `sort_by` is modelled by `List.insertionSort`, which is also
stable; a stable sort's output is uniquely determined by a total preorder
comparator, so the two agree. -/
/-- The `(y, then x)` comparator of the first sort, as the reflexive
total order `a comes-not-after b`. -/
def yxLe (a b : Vec2 K) : Prop := a.y < b.y ∨ (a.y = b.y ∧ a.x ≤ b.x)

instance : DecidableRel (yxLe (K := K)) := fun a b => by
  unfold yxLe; infer_instance

/-- Quadrant class of `atan2 d.y d.x`, ordered by angle value: class 0 is
`(-π, 0)` (lower half plane), class 1 is the angle `0` (nonnegative
x-axis, including the zero vector since `atan2 0 0 = 0`), class 2 is
`(0, π)` (upper half plane), class 3 is the angle `π` (negative x-axis). -/
def angleClass (d : Vec2 K) : ℕ :=
  if d.y < 0 then 0
  else if d.y = 0 ∧ 0 ≤ d.x then 1
  else if 0 < d.y then 2
  else 3

/-- Decidable characterisation of `atan2 d.y d.x ≤ atan2 e.y e.x`:
compare quadrant classes, and within the open half-plane classes (whose
angle spread is less than π) compare by the cross product sign. -/
def atan2le (d e : Vec2 K) : Prop :=
  angleClass d < angleClass e ∨
    (angleClass d = angleClass e ∧
      (angleClass d = 0 ∨ angleClass d = 2 → 0 ≤ Vec2.cross d e))

instance : ∀ d e : Vec2 K, Decidable (atan2le d e) := fun d e => by
  unfold atan2le; infer_instance

/-- The polar-angle comparator about `p0` used for the second sort. -/
def angle_about (p0 a b : Vec2 K) : Prop := atan2le (a - p0) (b - p0)

instance : ∀ p0 : Vec2 K, DecidableRel (angle_about p0) := fun p0 a b => by
  unfold angle_about; infer_instance

/-- `Vec::dedup`: remove consecutive duplicate elements. -/
def dedupConsec {α : Type} [DecidableEq α] : List α → List α
  | [] => []
  | [a] => [a]
  | a :: b :: l => if a = b then dedupConsec (b :: l) else a :: dedupConsec (b :: l)

/-- Decidable characterisation of the scan's pop test
`(last - snd).angle_between(point - snd) <= 0`, where `angle_between u w =
atan2 (cross u w) (dot u w)`: nonpositive iff the cross product is
negative, or zero with nonnegative dot (`atan2 0 d` is `0` for `d ≥ 0` and
`π` for `d < 0`). -/
def popCond (u w : Vec2 K) : Prop :=
  Vec2.cross u w < 0 ∨ (Vec2.cross u w = 0 ∧ 0 ≤ Vec2.dot u w)

instance : ∀ u w : Vec2 K, Decidable (popCond u w) := fun u w => by
  unfold popCond; infer_instance

/-- The scan's inner `while` loop: pop while the top two stack entries and
the incoming point fail to make a strictly counter-clockwise turn.  The
stack is kept top-first. -/
def scanPops (p : Vec2 K) : List (Vec2 K) → List (Vec2 K)
  | b :: a :: rest =>
    if popCond (b - a) (p - a) then scanPops p (a :: rest) else b :: a :: rest
  | s => s

/-- The scan's outer `for` loop; the final stack is returned bottom-first
(the source's `Vec` stack grows at the end, our list stack grows at the
head). -/
def grahamScan (pts : List (Vec2 K)) : List (Vec2 K) :=
  (pts.foldl (fun s p => p :: scanPops p s) []).reverse

/-- `convex_hull` (`src/geometry.rs` lines 20-52).  The source indexes
`points[0]` and so panics on an empty input; the empty case is mapped to
`[]` here and the claims only concern non-empty inputs. -/
def convex_hull (pts : List (Vec2 K)) : List (Vec2 K) :=
  match dedupConsec (pts.insertionSort yxLe) with
  | [] => []
  | p0 :: rest => grahamScan (p0 :: rest.insertionSort (angle_about p0))

/-! ## Broad phase: interval entries and `BTreeSet` range queries -/
/-- Lexicographic strict order on broad-phase entries
`(F32Ord, F32Ord, usize)`, the `Ord` instance the `BTreeSet`s use. -/
def entryLt (a b : K × K × ℕ) : Prop :=
  a.1 < b.1 ∨ (a.1 = b.1 ∧ (a.2.1 < b.2.1 ∨ (a.2.1 = b.2.1 ∧ a.2.2 < b.2.2)))

instance : ∀ a b : K × K × ℕ, Decidable (entryLt a b) := fun a b => by
  unfold entryLt; infer_instance

/-- Lexicographic `≤` on broad-phase entries. -/
def entryLe (a b : K × K × ℕ) : Prop := entryLt a b ∨ a = b

instance : ∀ a b : K × K × ℕ, Decidable (entryLe a b) := fun a b => by
  unfold entryLe; infer_instance

/-- `BTreeSet::range(lo..hi)` followed by `candidates.push(bound.2)`: the
indices of the set's entries `e` with `lo ≤ e < hi`.  Iteration order is
irrelevant to the claims, so the set is modelled as the list of its
entries and the range as a filter. -/
def rangeQuery (entries : List (K × K × ℕ)) (lo hi : K × K × ℕ) : List ℕ :=
  (entries.filter fun e => decide (entryLe lo e) && decide (entryLt e hi)).map
    fun e => e.2.2

/-- One broad-phase candidate query (`src/main.rs` lines 261-269, and
identically lines 293-300 after an incremental update): scan the range
`[own .. (own.max_x, 0, 0))` in both the min-ordered and the max-ordered
set, where `own = (min_x, max_x, index)` is the query body's entry. -/
def queryCandidates (bounds_left bounds_right : List (K × K × ℕ))
    (own : K × K × ℕ) : List ℕ :=
  rangeQuery bounds_left own (own.2.1, 0, 0) ++
    rangeQuery bounds_right own (own.2.1, 0, 0)

/-- Closed-interval overlap of X-intervals, the claim's notion of the
"true swept-volume X-interval overlap". -/
def intervalsOverlap (i1 i2 : K × K) : Prop := i1.1 ≤ i2.2 ∧ i2.1 ≤ i1.2

/-! ## Real-valued geometry: rotation, normalisation, world-space points -/
/-- `Vec2Ext::rotate_rad` (`src/geometry.rs`): rotation by `angle`
radians. -/
noncomputable def rotate_rad (v : Vec2 ℝ) (angle : ℝ) : Vec2 ℝ :=
  ⟨v.x * Real.cos angle - v.y * Real.sin angle,
   v.x * Real.sin angle + v.y * Real.cos angle⟩

/-- `glam::Vec2::normalize`: `v` scaled by the reciprocal of its length. -/
noncomputable def normalize (v : Vec2 ℝ) : Vec2 ℝ :=
  (1 / Real.sqrt v.length_squared) • v

/-- `CollisionSimulator::check_collision` (`src/main.rs` lines 424-499)
minus the `CollisionInfo` id/stamp packaging, which is constant over the
minimisation (see `check_collision_info`): clone both objects, bring them
to the common time `cur` by a velocity-only position shift, switch to the
frame in which `other` is at rest, compute world-space vertices, and scan
all (vertex, edge) pairs for the earliest accepted root. -/
noncomputable def query_cur (sharp other : Object ℝ) : ℝ :=
  max sharp.cur_time other.cur_time

/-- The sharp body's world-space vertices as `check_collision` computes
them: shape vertices rotated by the body's rotation and translated by the
position advanced (velocity only) to the common query time. -/
noncomputable def sharp_pts (sharp other : Object ℝ) : List (Vec2 ℝ) :=
  sharp.shape.map fun p => rotate_rad p sharp.rotation +
    (sharp.position + (query_cur sharp other - sharp.cur_time) • sharp.velocity)

/-- The other body's world-space vertices as `check_collision` computes
them. -/
noncomputable def other_pts (sharp other : Object ℝ) : List (Vec2 ℝ) :=
  other.shape.map fun p => rotate_rad p other.rotation +
    (other.position + (query_cur sharp other - other.cur_time) • other.velocity)

noncomputable def check_collision (sharp other : Object ℝ) (te : ℝ) :
    Option (CollisionData ℝ) :=
  collide_scan (query_cur sharp other) te (sharp_pts sharp other)
    (other_pts sharp other) (sharp.velocity - other.velocity)

/-- The event record (`CollisionInfo` in `src/main.rs`). -/
structure CollisionInfo (K : Type) where
  time : K
  object_1 : ℕ
  object_1_col_stamp : ℕ
  point_1 : ℕ
  object_2 : ℕ
  object_2_col_stamp : ℕ
  line_2 : ℕ
deriving DecidableEq

/-- `check_collision` with the id/stamp packaging of the source: the
returned `CollisionInfo` embeds both objects' `updated` stamps at query
time. -/
noncomputable def check_collision_info (objects : List (Object ℝ)) (i j : ℕ)
    (te : ℝ) : Option (CollisionInfo ℝ) :=
  (check_collision (objects.getD i default) (objects.getD j default) te).map fun d =>
    ⟨d.time, i, (objects.getD i default).updated, d.point_1,
      j, (objects.getD j default).updated, d.line_2⟩

/-- In-place mutation of one list element (`self.objects[i] = ...`); a
no-op out of range, where the source would panic. -/
def modifyAt {α : Type} [Inhabited α] (l : List α) (i : ℕ) (f : α → α) : List α :=
  l.set i (f (l.getD i default))

/-- Componentwise division of a vector by a scalar (`Vec2 / f32`). -/
def Vec2.divs (a : Vec2 K) (c : K) : Vec2 K := ⟨a.x / c, a.y / c⟩

/-- The contact normal of `handle_collision`: the struck edge's endpoints
in the other body's rotated frame, `(col_line_a - col_line_b).perp()`,
normalised. -/
noncomputable def contact_normal (other : Object ℝ) (line_2 : ℕ) : Vec2 ℝ :=
  normalize
    ((rotate_rad (other.shape.getD line_2 0) other.rotation -
      rotate_rad (other.shape.getD ((line_2 + 1) % other.shape.length) 0)
        other.rotation).perp)

/-- The impulse magnitude of `handle_collision`:
`-2 * rel_velocity.dot(normal) / (1/mass_1 + 1/mass_2)`, computed from the
given (pre-advance) object states. -/
noncomputable def impulse_of (sharp other : Object ℝ) (normal : Vec2 ℝ) : ℝ :=
  -2 * (sharp.velocity - other.velocity).dot normal /
    (1 / sharp.mass + 1 / other.mass)

/-- `CollisionSimulator::handle_collision` (`src/main.rs` lines 313-350).
State is the object registry plus the `debug_points` list; the return
value is the source's `bool` (event applied or stale) together with the
updated state.  All reads preceding the mutations (contact position,
edge, normal, relative velocity, impulse) use the pre-update object
states, exactly as the source's borrows do. -/
noncomputable def handle_collision (objects : List (Object ℝ))
    (debug_points : List (Vec2 ℝ)) (ci : CollisionInfo ℝ) :
    Bool × List (Object ℝ) × List (Vec2 ℝ) :=
  let sharp := objects.getD ci.object_1 default
  let other := objects.getD ci.object_2 default
  if ci.object_1_col_stamp ≠ sharp.updated ∨ ci.object_2_col_stamp ≠ other.updated then
    (false, objects, debug_points)
  else
    let col_position := rotate_rad (sharp.shape.getD ci.point_1 0) sharp.rotation +
      sharp.position + (ci.time - sharp.cur_time) • sharp.velocity
    let normal := contact_normal other ci.line_2
    let impulse := impulse_of sharp other normal
    let o1 := modifyAt objects ci.object_1 fun o => o.update ci.time
    let o2 := modifyAt o1 ci.object_2 fun o => o.update ci.time
    let mass1 := (o2.getD ci.object_1 default).mass
    let mass2 := (o2.getD ci.object_2 default).mass
    let o3 := modifyAt o2 ci.object_1 fun o =>
      { o with velocity := o.velocity + (impulse • normal).divs mass1 }
    let o4 := modifyAt o3 ci.object_2 fun o =>
      { o with velocity := o.velocity - (impulse • normal).divs mass2 }
    let o5 := modifyAt o4 ci.object_1 fun o => { o with collided := o.collided + 1 }
    let o6 := modifyAt o5 ci.object_2 fun o => { o with collided := o.collided + 1 }
    let o7 := modifyAt o6 ci.object_1 fun o =>
      { o with position := o.position + (0.005 : ℝ) • normal }
    let o8 := modifyAt o7 ci.object_2 fun o =>
      { o with position := o.position - (0.005 : ℝ) • normal }
    (true, o8, debug_points ++ [col_position])

/-! ## SAT overlap test (`src/geometry.rs` lines 57-108) -/
/-- `project` (`src/geometry.rs` lines 93-108): minimum and maximum dot
product of the hull's vertices with `axis`, starting from vertex 0 (the
source panics on an empty hull; the empty case returns junk here). -/
noncomputable def project (hull : List (Vec2 ℝ)) (axis : Vec2 ℝ) : ℝ × ℝ :=
  match hull with
  | [] => (0, 0)
  | h :: t =>
    t.foldl
      (fun mm v =>
        (if axis.dot v < mm.1 then axis.dot v else mm.1,
         if mm.2 < axis.dot v then axis.dot v else mm.2))
      (axis.dot h, axis.dot h)

/-- The axes `sat_collision_detect` tests for one hull: each edge vector
rotated by `rotate_rad(-90.)` — i.e. by *minus ninety radians*, the
literal the source passes — then normalised. -/
noncomputable def sat_axes (hull : List (Vec2 ℝ)) : List (Vec2 ℝ) :=
  (List.range hull.length).map fun i =>
    normalize (rotate_rad (hull.getD ((i + 1) % hull.length) 0 - hull.getD i 0) (-90))

/-- Disjointness of the two hulls' projection intervals on `axis`
(`if max1 < min2 || max2 < min1 { return false; }`). -/
def separatedOn (h1 h2 : List (Vec2 ℝ)) (axis : Vec2 ℝ) : Prop :=
  (project h1 axis).2 < (project h2 axis).1 ∨ (project h2 axis).2 < (project h1 axis).1

/-- `sat_collision_detect` (`src/geometry.rs` lines 57-90): `true` iff no
tested axis (from either hull) separates the projections — the source
returns `false` from inside the loops at the first separating axis and
`true` after both loops complete. -/
def sat_collision_detect (h1 h2 : List (Vec2 ℝ)) : Prop :=
  ∀ ax ∈ sat_axes h1 ++ sat_axes h2, ¬separatedOn h1 h2 ax

/-! ## Swept volume and the per-frame broad-phase seeding
(`src/main.rs` lines 157-183 and 235-276) -/
/-- `TraversedVolume::from_object`: the convex hull of the body's
world-space vertices at its current pose together with those of a clone
advanced to `target_time` (the clone's rotation equals the original's, and
the source uses `object.rotation` for both maps). -/
noncomputable def traversed_volume (o : Object ℝ) (target_time : ℝ) : List (Vec2 ℝ) :=
  let future := o.update target_time
  convex_hull
    ((o.shape.map fun p => rotate_rad p o.rotation + o.position) ++
      (future.shape.map fun p => rotate_rad p o.rotation + future.position))

/-- The `compute_x_bounds!` macro (`src/main.rs` lines 238-248): minimum
and maximum x-coordinate over the traversed volume's points. -/
noncomputable def compute_x_bounds (o : Object ℝ) (te : ℝ) : ℝ × ℝ :=
  match (traversed_volume o te).map Vec2.x with
  | [] => (0, 0)
  | x :: xs => (xs.foldl min x, xs.foldl max x)

/-- The per-frame `bounds` vector (`src/main.rs` lines 250-255):
`(min_x, max_x, index)` for every live body. -/
noncomputable def seed_bounds (objects : List (Object ℝ)) (te : ℝ) : List (ℝ × ℝ × ℕ) :=
  objects.enum.map fun io =>
    ((compute_x_bounds io.2 te).1, (compute_x_bounds io.2 te).2, io.1)

/-- The seed-pass candidate list for body `i` (`src/main.rs` lines
260-269): query both `BTreeSet`s, whose entries are `bounds` and the
swapped `bounds_rev`, with body `i`'s own bound. -/
noncomputable def seed_candidates (objects : List (Object ℝ)) (te : ℝ) (i : ℕ) : List ℕ :=
  let bounds := seed_bounds objects te
  queryCandidates bounds (bounds.map fun e => (e.2.1, e.1, e.2.2)) (bounds.getD i default)

/-! ## A concrete valid collision (used by several witnesses and
counterexamples): body 0 flies right with nonzero acceleration, body 1
flies left; the event strikes vertex 0 of body 0 against the vertical
edge of body 1 at time 1.  All rotations are zero. -/
/-- Concrete test body 0: unit mass at the origin, velocity `(1,0)`,
acceleration `(1,0)`, single-vertex shape, time 0, stamp 0. -/
noncomputable def oA : Object ℝ := ⟨1, ⟨0, 0⟩, ⟨1, 0⟩, ⟨1, 0⟩, 0, 0, [⟨0, 0⟩], 0, 0, 0⟩

/-- Concrete test body 1: unit mass at `(2,0)`, velocity `(-1,0)`, no
acceleration, the vertical edge `(1,-1)-(1,1)` as shape, time 0, stamp 0. -/
noncomputable def oB : Object ℝ :=
  ⟨1, ⟨2, 0⟩, ⟨-1, 0⟩, ⟨0, 0⟩, 0, 0, [⟨1, -1⟩, ⟨1, 1⟩], 0, 0, 0⟩

/-- The concrete event: bodies 0 and 1, vertex 0 into edge 0, time 1,
both embedded stamps 0 (matching). -/
noncomputable def ciAB : CollisionInfo ℝ := ⟨1, 0, 0, 0, 1, 0, 0⟩

/-! ## Claim C3: what state the impulse is computed from -/
/-- Claim C3's version of the impulse: computed from the bodies' relative
velocity as of `event.time`, i.e. *after* the advance (which applies
acceleration over the elapsed interval).  This is not what the source
computes — `handle_collision` reads `rel_velocity` before calling
`update` — and the two differ whenever an involved body has nonzero
acceleration; see `C3_counterexample`. -/
noncomputable def impulse_postadvance (sharp other : Object ℝ) (t : ℝ)
    (normal : Vec2 ℝ) : ℝ :=
  -2 * ((sharp.update t).velocity - (other.update t).velocity).dot normal /
    (1 / sharp.mass + 1 / other.mass)

/-! ## Claim C1: what `check_collision` returns

`CollisionData.ltb` is a strict lexicographic order; `key` maps it to a
Mathlib `Prod.Lex` so that standard order reasoning applies. -/
def CollisionData.key (c : CollisionData K) : Lex (K × Lex (ℕ × ℕ)) :=
  toLex (c.time, toLex (c.point_1, c.line_2))

/-- Abbreviation for the per-pair probe the scan makes at entry
`(i, p, j)`. -/
def probe (cur te : K) (op : List (Vec2 K)) (v p : Vec2 K) (j : ℕ) : Option K :=
  check cur te p v (op.getD j 0) (op.getD ((j + 1) % op.length) 0)

/-- The per-pair acceptance test exactly as claim C1 words it: identical
to the source's `check` except that the time window is right-closed,
`(cur, te]`. -/
def check_specC1 (cur te : K) (p v a b : Vec2 K) : Option K :=
  if FVal.fle (.fin (min a.x b.x)) (intercept p v a b) &&
      FVal.fle (intercept p v a b) (.fin (max a.x b.x)) then
    match coltime cur p v a b with
    | .fin time => if cur < time ∧ time ≤ te then some time else none
    | _ => none
  else none

/-- Concrete narrow-phase query: a single vertex at the origin moving
right at unit speed ... -/
noncomputable def sharpW : Object ℝ := Object.new ⟨0, 0⟩ ⟨1, 0⟩ 0 [⟨0, 0⟩]

/-- ... against a stationary two-vertex shape whose edge goes from
`(2,-1)` to `(3,1)` (slope 2); the ray hits the edge line at `x = 5/2`,
within the segment bounds, at time `5/2`. -/
noncomputable def otherW : Object ℝ := Object.new ⟨0, 0⟩ ⟨0, 0⟩ 0 [⟨2, -1⟩, ⟨3, 1⟩]

/-! ## Claim C2: broad-phase completeness -/
/-- Concrete body whose swept X-interval is `[1, 2]` (a stationary
horizontal segment). -/
noncomputable def oSmall : Object ℝ := Object.new ⟨0, 0⟩ ⟨0, 0⟩ 0 [⟨1, 0⟩, ⟨2, 0⟩]

/-- Concrete body whose swept X-interval is `[0, 3]`, strictly containing
`oSmall`'s interval. -/
noncomputable def oBig : Object ℝ := Object.new ⟨0, 0⟩ ⟨0, 0⟩ 0 [⟨0, 0⟩, ⟨3, 0⟩]

/-! ## C7: the SAT axes versus the specification's outward edge normals -/
/-- The axes claim C7 describes: for each edge of the (counter-clockwise)
hull, the edge's outward normal.  For a counter-clockwise hull the outward
normal of the edge vector `e` is `e` rotated by minus ninety *degrees*,
i.e. `(e.y, -e.x)`; scaling an axis does not change whether the two
projection intervals are disjoint, so the normal is left unnormalised.
This definition follows the claim's words, for comparison with the
source-derived `sat_axes`. -/
noncomputable def sat_spec_axes (hull : List (Vec2 ℝ)) : List (Vec2 ℝ) :=
  (List.range hull.length).map fun i =>
    ⟨(hull.getD ((i + 1) % hull.length) 0 - hull.getD i 0).y,
     -(hull.getD ((i + 1) % hull.length) 0 - hull.getD i 0).x⟩

/-- The overlap test as claim C7 words it: no spec axis separates the
projections. -/
def sat_spec (h1 h2 : List (Vec2 ℝ)) : Prop :=
  ∀ ax ∈ sat_spec_axes h1 ++ sat_spec_axes h2, ¬separatedOn h1 h2 ax

/-- A unit square with corners `(0,0)` and `(1,1)`, counter-clockwise. -/
noncomputable def sqA : List (Vec2 ℝ) := [⟨0, 0⟩, ⟨1, 0⟩, ⟨1, 1⟩, ⟨0, 1⟩]

/-- A unit square with corners `(1.2,0)` and `(2.2,1)`, counter-clockwise:
disjoint from `sqA`, with a gap of `0.2` along the x-axis. -/
noncomputable def sqB : List (Vec2 ℝ) :=
  [⟨6 / 5, 0⟩, ⟨11 / 5, 0⟩, ⟨11 / 5, 1⟩, ⟨6 / 5, 1⟩]

/-- The fold step of `project`, named so the fold can be reasoned about. -/
noncomputable def scanMM (ax : Vec2 ℝ) (mm : ℝ × ℝ) (v : Vec2 ℝ) : ℝ × ℝ :=
  (if ax.dot v < mm.1 then ax.dot v else mm.1,
   if mm.2 < ax.dot v then ax.dot v else mm.2)

/-! ## C8: correctness of the Graham scan in `convex_hull` -/
/-- Strict version of the `(y, then x)` order. -/
def yxLt (a b : Vec2 K) : Prop := a.y < b.y ∨ (a.y = b.y ∧ a.x < b.x)

/-- `d` points strictly into the upper half plane, or along the positive
x-axis: the direction of any non-first point about the bottom-left-most
point. -/
def uppr (d : Vec2 K) : Prop := 0 < d.y ∨ (d.y = 0 ∧ 0 < d.x)

/-- The processing order of the angular pass: strictly smaller polar angle
about `p0`, or same ray and strictly closer (the `yxLt` order agrees with
distance along an `uppr` ray). -/
def ole (p0 a b : Vec2 K) : Prop :=
  0 < Vec2.cross (a - p0) (b - p0) ∨
    (Vec2.cross (a - p0) (b - p0) = 0 ∧ yxLt a b)

instance : IsTotal (Vec2 K) yxLe :=
  ⟨fun a b => by
    unfold yxLe
    rcases lt_trichotomy a.y b.y with h | h | h
    · exact Or.inl (Or.inl h)
    · rcases le_total a.x b.x with h' | h'
      · exact Or.inl (Or.inr ⟨h, h'⟩)
      · exact Or.inr (Or.inr ⟨h.symm, h'⟩)
    · exact Or.inr (Or.inl h)⟩

instance : IsTrans (Vec2 K) yxLe :=
  ⟨fun a b c hab hbc => by
    unfold yxLe at *
    rcases hab with h | ⟨h, h'⟩ <;> rcases hbc with g | ⟨g, g'⟩
    · exact Or.inl (h.trans g)
    · exact Or.inl (g ▸ h)
    · exact Or.inl (h ▸ g)
    · exact Or.inr ⟨h.trans g, h'.trans g'⟩⟩

instance (p0 : Vec2 K) : IsTotal (Vec2 K) (angle_about p0) :=
  ⟨fun a b => by
    unfold angle_about atan2le
    rcases lt_trichotomy (angleClass (a - p0)) (angleClass (b - p0)) with h | h | h
    · exact Or.inl (Or.inl h)
    · by_cases hcr : 0 ≤ Vec2.cross (a - p0) (b - p0)
      · exact Or.inl (Or.inr ⟨h, fun _ => hcr⟩)
      · refine Or.inr (Or.inr ⟨h.symm, fun _ => ?_⟩)
        have hanti : Vec2.cross (b - p0) (a - p0) = -Vec2.cross (a - p0) (b - p0) := by
          simp only [Vec2.cross]
          ring
        rw [hanti]
        linarith [lt_of_not_ge hcr]
    · exact Or.inr (Or.inl h)⟩

instance (p0 : Vec2 K) : IsTrans (Vec2 K) (angle_about p0) :=
  ⟨fun a b c h1 h2 => by
    have hyneg : ∀ d : Vec2 K, angleClass d = 0 → d.y < 0 := by
      intro d hd
      by_contra hneg
      unfold angleClass at hd
      rw [if_neg hneg] at hd
      split_ifs at hd
    have hypos : ∀ d : Vec2 K, angleClass d = 2 → 0 < d.y := by
      intro d hd
      by_contra hneg
      unfold angleClass at hd
      split_ifs at hd <;> exact absurd hd (by decide)
    have hkey : ∀ d e f : Vec2 K,
        e.y * Vec2.cross d f = f.y * Vec2.cross d e + d.y * Vec2.cross e f := by
      intro d e f
      simp only [Vec2.cross]
      ring
    unfold angle_about atan2le at h1 h2 ⊢
    rcases h1 with h1 | ⟨h1, h1c⟩
    · rcases h2 with h2 | ⟨h2, h2c⟩
      · exact Or.inl (h1.trans h2)
      · exact Or.inl (h2 ▸ h1)
    · rcases h2 with h2 | ⟨h2, h2c⟩
      · exact Or.inl (h1 ▸ h2)
      · refine Or.inr ⟨h1.trans h2, fun hc => ?_⟩
        have hde := h1c hc
        have hef := h2c (by rw [← h1]; exact hc)
        have hk := hkey (a - p0) (b - p0) (c - p0)
        rcases hc with hc | hc
        · have hd := hyneg _ hc
          have he := hyneg _ (h1.symm.trans hc)
          have hf := hyneg _ ((h2.symm.trans h1.symm).trans hc)
          nlinarith
        · have hd := hypos _ hc
          have he := hypos _ (h1.symm.trans hc)
          have hf := hypos _ ((h2.symm.trans h1.symm).trans hc)
          nlinarith⟩

/-! ### The scan invariants -/
/-- Strict counter-clockwise turns along all consecutive triples of the
stack, read top-first (the reverse of the eventual hull order): for a
triple `c` over `b` over `a` the turn `a -> b -> c` is strictly
counter-clockwise. -/
def TurnsTF : List (Vec2 K) → Prop
  | c :: b :: a :: l => 0 < Vec2.cross (b - a) (c - b) ∧ TurnsTF (b :: a :: l)
  | _ => True

/-! ### Claim C8: statement instance -/
/-- The 3x3 grid of the specification's example, in the order the spec
lists the set's elements. -/
def gridPts : List (Vec2 ℚ) :=
  [⟨0, 0⟩, ⟨1, 0⟩, ⟨0, 1⟩, ⟨1, 1⟩, ⟨1/2, 1/2⟩, ⟨1/2, 0⟩, ⟨0, 1/2⟩, ⟨1/2, 1⟩, ⟨1, 1/2⟩]

/-! ## Theorems about the embedded program -/

namespace Vec2

variable {K : Type} [LinearOrderedField K]

@[simp] theorem zero_x : (0 : Vec2 K).x = 0 := rfl

@[simp] theorem zero_y : (0 : Vec2 K).y = 0 := rfl

@[simp] theorem add_x (a b : Vec2 K) : (a + b).x = a.x + b.x := rfl

@[simp] theorem add_y (a b : Vec2 K) : (a + b).y = a.y + b.y := rfl

@[simp] theorem sub_x (a b : Vec2 K) : (a - b).x = a.x - b.x := rfl

@[simp] theorem sub_y (a b : Vec2 K) : (a - b).y = a.y - b.y := rfl

@[simp] theorem neg_x (a : Vec2 K) : (-a).x = -a.x := rfl

@[simp] theorem neg_y (a : Vec2 K) : (-a).y = -a.y := rfl

@[simp] theorem smul_x (c : K) (a : Vec2 K) : (c • a).x = c * a.x := rfl

@[simp] theorem smul_y (c : K) (a : Vec2 K) : (c • a).y = c * a.y := rfl

@[simp] theorem mk_add_mk (a b c d : K) :
    (⟨a, b⟩ + ⟨c, d⟩ : Vec2 K) = ⟨a + c, b + d⟩ := rfl

@[simp] theorem mk_sub_mk (a b c d : K) :
    (⟨a, b⟩ - ⟨c, d⟩ : Vec2 K) = ⟨a - c, b - d⟩ := rfl

@[simp] theorem smul_mk (c a b : K) : c • (⟨a, b⟩ : Vec2 K) = ⟨c * a, c * b⟩ := rfl

@[simp] theorem neg_mk (a b : K) : -(⟨a, b⟩ : Vec2 K) = ⟨-a, -b⟩ := rfl

end Vec2

namespace Object

variable {K : Type} [LinearOrderedField K]

@[simp] theorem update_mass (o : Object K) (t : K) : (o.update t).mass = o.mass := rfl

@[simp] theorem update_shape (o : Object K) (t : K) : (o.update t).shape = o.shape := rfl

@[simp] theorem update_rotation (o : Object K) (t : K) : (o.update t).rotation = o.rotation := rfl

@[simp] theorem update_updated (o : Object K) (t : K) : (o.update t).updated = o.updated + 1 := rfl

@[simp] theorem update_collided (o : Object K) (t : K) : (o.update t).collided = o.collided := rfl

theorem update_cur_time (o : Object K) (t : K) : (o.update t).cur_time = t := by
  simp [update]

theorem update_position (o : Object K) (t : K) :
    (o.update t).position = o.position + (t - o.cur_time) • o.velocity := rfl

theorem update_velocity (o : Object K) (t : K) :
    (o.update t).velocity = o.velocity + (t - o.cur_time) • o.acceleration := rfl

end Object

/-! ## Helper lemmas about `modifyAt` -/
theorem modifyAt_length {α : Type} [Inhabited α] (l : List α) (i : ℕ) (f : α → α) :
    (modifyAt l i f).length = l.length := by
  simp [modifyAt]

theorem modifyAt_getD_same {α : Type} [Inhabited α] (l : List α) (i : ℕ) (f : α → α)
    (h : i < l.length) :
    (modifyAt l i f).getD i default = f (l.getD i default) := by
  simp [modifyAt, List.getD_eq_getElem?_getD, List.getElem?_set_eq_of_lt _ h]

theorem modifyAt_getD_other {α : Type} [Inhabited α] (l : List α) (i b : ℕ) (f : α → α)
    (h : b ≠ i) :
    (modifyAt l i f).getD b default = l.getD b default := by
  simp [modifyAt, List.getD_eq_getElem?_getD, List.getElem?_set_ne (Ne.symm h)]

theorem modifyAt_getD {α : Type} [Inhabited α] (l : List α) (i b : ℕ) (f : α → α) :
    (modifyAt l i f).getD b default =
      if b = i ∧ i < l.length then f (l.getD b default) else l.getD b default := by
  by_cases hb : b = i
  · subst hb
    by_cases hl : b < l.length
    · rw [if_pos ⟨rfl, hl⟩, modifyAt_getD_same _ _ _ hl]
    · rw [if_neg fun hc => hl hc.2]
      rw [modifyAt, List.set_eq_of_length_le (Nat.le_of_not_lt hl)]
  · rw [if_neg fun hc => hb hc.1, modifyAt_getD_other _ _ _ _ hb]

/-! ## The valid path of `handle_collision`, characterised -/
/-- Characterisation of a successful `handle_collision` call on two
distinct in-range bodies with matching stamps: it returns `true`, advances
both bodies to `ci.time`, applies `± impulse • normal / mass` to their
velocities (the impulse computed from the *pre-advance* relative
velocity), bumps their collision counts, nudges their positions by
`± 0.005 • normal`, and leaves every other body untouched. -/
theorem handle_collision_valid (objects : List (Object ℝ)) (debug : List (Vec2 ℝ))
    (ci : CollisionInfo ℝ)
    (hs1 : ci.object_1_col_stamp = (objects.getD ci.object_1 default).updated)
    (hs2 : ci.object_2_col_stamp = (objects.getD ci.object_2 default).updated)
    (hne : ci.object_1 ≠ ci.object_2)
    (hl1 : ci.object_1 < objects.length) (hl2 : ci.object_2 < objects.length) :
    (handle_collision objects debug ci).1 = true ∧
    (handle_collision objects debug ci).2.1.getD ci.object_1 default =
      (let sharp := objects.getD ci.object_1 default
       let other := objects.getD ci.object_2 default
       let n := contact_normal other ci.line_2
       let u := sharp.update ci.time
       { u with
          velocity := u.velocity + (impulse_of sharp other n • n).divs sharp.mass
          collided := u.collided + 1
          position := u.position + (0.005 : ℝ) • n }) ∧
    (handle_collision objects debug ci).2.1.getD ci.object_2 default =
      (let sharp := objects.getD ci.object_1 default
       let other := objects.getD ci.object_2 default
       let n := contact_normal other ci.line_2
       let u := other.update ci.time
       { u with
          velocity := u.velocity - (impulse_of sharp other n • n).divs other.mass
          collided := u.collided + 1
          position := u.position - (0.005 : ℝ) • n }) ∧
    (∀ b, b ≠ ci.object_1 → b ≠ ci.object_2 →
      (handle_collision objects debug ci).2.1.getD b default = objects.getD b default) ∧
    (handle_collision objects debug ci).2.1.length = objects.length := by
  have hcond : ¬(ci.object_1_col_stamp ≠ (objects.getD ci.object_1 default).updated ∨
      ci.object_2_col_stamp ≠ (objects.getD ci.object_2 default).updated) := by
    push_neg
    exact ⟨hs1, hs2⟩
  have hne' : ci.object_2 ≠ ci.object_1 := Ne.symm hne
  unfold handle_collision
  rw [if_neg hcond]
  refine ⟨rfl, ?_, ?_, ?_, ?_⟩
  · simp only [modifyAt_getD_other, modifyAt_getD_same, modifyAt_length, hl1, hl2,
      hne, hne', ne_eq, not_false_iff]
    simp [Object.update]
  · simp only [modifyAt_getD_other, modifyAt_getD_same, modifyAt_length, hl1, hl2,
      hne, hne', ne_eq, not_false_iff]
    simp [Object.update]
  · intro b hb1 hb2
    simp only [modifyAt_getD_other, hb1, hb2, ne_eq, not_false_iff]
  · simp [modifyAt_length]

/-! ## Claim C4: stale events are discarded without touching any state -/
/-- **C4.** If a popped collision event's embedded stamp for either
involved body differs from that body's current `updated` stamp,
`handle_collision` returns `false` and leaves every body's state (and the
debug-point list) unchanged. -/
theorem C4_stale_event_discarded (objects : List (Object ℝ)) (debug : List (Vec2 ℝ))
    (ci : CollisionInfo ℝ)
    (h : ci.object_1_col_stamp ≠ (objects.getD ci.object_1 default).updated ∨
        ci.object_2_col_stamp ≠ (objects.getD ci.object_2 default).updated) :
    handle_collision objects debug ci = (false, objects, debug) := by
  unfold handle_collision
  rw [if_pos h]

/-- Witness for C4: a concrete stale event (embedded stamp 1, live stamp
0) is discarded and the state returned unchanged. -/
theorem C4_stale_event_discarded_witness :
    handle_collision [Object.new 0 0 0 []] [] ⟨0, 0, 1, 0, 0, 1, 0⟩ =
      (false, [Object.new 0 0 0 []], []) :=
  C4_stale_event_discarded _ _ _ (Or.inl (by simp [Object.new]))

/-! ## Claim C5: `updated` strictly increases on every kinematic mutation -/
/-- **C5.** Whenever an engine operation changes a body's position,
velocity or `cur_time`, that body's `updated` stamp is strictly greater
afterwards than before: for `Object::update` (the integrator), and for
`handle_collision` (collision resolution, including the impulse velocity
change and the positional nudge) on every body index. -/
theorem C5_update_stamp_strictly_increases :
    (∀ (o : Object ℝ) (t : ℝ),
        (o.update t).position ≠ o.position ∨ (o.update t).velocity ≠ o.velocity ∨
          (o.update t).cur_time ≠ o.cur_time →
        o.updated < (o.update t).updated) ∧
    (∀ (objects : List (Object ℝ)) (debug : List (Vec2 ℝ)) (ci : CollisionInfo ℝ) (b : ℕ),
        ((handle_collision objects debug ci).2.1.getD b default).position ≠
            (objects.getD b default).position ∨
          ((handle_collision objects debug ci).2.1.getD b default).velocity ≠
            (objects.getD b default).velocity ∨
          ((handle_collision objects debug ci).2.1.getD b default).cur_time ≠
            (objects.getD b default).cur_time →
        (objects.getD b default).updated <
          ((handle_collision objects debug ci).2.1.getD b default).updated) := by
  constructor
  · intro o t _
    simp [Object.update]
  · intro objects debug ci b h
    by_cases hstale : (ci.object_1_col_stamp ≠ (objects.getD ci.object_1 default).updated ∨
        ci.object_2_col_stamp ≠ (objects.getD ci.object_2 default).updated)
    · unfold handle_collision at h
      rw [if_pos hstale] at h
      simp at h
    · unfold handle_collision at h ⊢
      rw [if_neg hstale] at h ⊢
      simp only [modifyAt_getD, modifyAt_length] at h ⊢
      by_cases h12 : ci.object_1 = ci.object_2
      · by_cases h1 : b = ci.object_1 <;> by_cases h2 : b = ci.object_2 <;>
          by_cases hr1 : ci.object_1 < objects.length <;>
          by_cases hr2 : ci.object_2 < objects.length <;>
          simp [h1, h2, h12, hr1, hr2, Object.update] at h ⊢ <;> omega
      · have h21 : ci.object_2 ≠ ci.object_1 := Ne.symm h12
        by_cases h1 : b = ci.object_1 <;> by_cases h2 : b = ci.object_2 <;>
          by_cases hr1 : ci.object_1 < objects.length <;>
          by_cases hr2 : ci.object_2 < objects.length <;>
          simp [h1, h2, h12, h21, hr1, hr2, Object.update] at h ⊢

theorem sqrt_four : Real.sqrt 4 = 2 := by
  rw [show (4 : ℝ) = 2 ^ 2 by norm_num]
  exact Real.sqrt_sq (by norm_num)

theorem contact_normal_oB : contact_normal oB 0 = ⟨1, 0⟩ := by
  ext <;>
    simp [contact_normal, oB, rotate_rad, normalize, Vec2.perp, Vec2.length_squared,
      show ((2 : ℝ) * 2 + 0 * 0) = 4 by norm_num, sqrt_four]

theorem impulse_oAB : impulse_of oA oB (⟨1, 0⟩ : Vec2 ℝ) = -2 := by
  norm_num [impulse_of, oA, oB, Vec2.dot]

/-- Full evaluation of the concrete collision. -/
theorem handle_AB_eval :
    (handle_collision [oA, oB] [] ciAB).2.1.getD 0 default =
      ⟨1, ⟨201 / 200, 0⟩, ⟨0, 0⟩, ⟨1, 0⟩, 0, 0, [⟨0, 0⟩], 1, 1, 1⟩ ∧
    (handle_collision [oA, oB] [] ciAB).2.1.getD 1 default =
      ⟨1, ⟨199 / 200, 0⟩, ⟨1, 0⟩, ⟨0, 0⟩, 0, 0, [⟨1, -1⟩, ⟨1, 1⟩], 1, 1, 1⟩ := by
  obtain ⟨-, h1, h2, -, -⟩ := handle_collision_valid [oA, oB] [] ciAB
    (by simp [oA, ciAB]) (by simp [oB, ciAB]) (by simp [ciAB])
    (by simp [ciAB]) (by simp [ciAB])
  constructor
  · rw [show (0 : ℕ) = ciAB.object_1 from rfl, h1]
    simp only [ciAB, List.getD_cons_zero, List.getD_cons_succ]
    simp only [contact_normal_oB, impulse_oAB]
    simp [oA, oB, Object.update, Vec2.divs, Vec2.mk.injEq]
    norm_num
  · rw [show (1 : ℕ) = ciAB.object_2 from rfl, h2]
    simp only [ciAB, List.getD_cons_zero, List.getD_cons_succ]
    simp only [contact_normal_oB, impulse_oAB]
    simp [oA, oB, Object.update, Vec2.divs, Vec2.mk.injEq]
    norm_num

/-- Witness for C5: in the concrete collision, body 0's velocity changes
(from `(1,0)` to `(0,0)`) and its stamp strictly increases. -/
theorem C5_update_stamp_strictly_increases_witness :
    (List.getD [oA, oB] 0 default).updated <
      ((handle_collision [oA, oB] [] ciAB).2.1.getD 0 default).updated :=
  C5_update_stamp_strictly_increases.2 [oA, oB] [] ciAB 0
    (Or.inr (Or.inl (by rw [handle_AB_eval.1]; simp [oA])))

/-- The scalar cancellation behind momentum conservation. -/
theorem momentum_cancel (m1 m2 v1 v2 t : ℝ) (h1 : m1 ≠ 0) (h2 : m2 ≠ 0) :
    m1 * (v1 + t / m1) + m2 * (v2 - t / m2) = m1 * v1 + m2 * v2 := by
  field_simp
  ring

/-! ## Claim C10: the impulse conserves linear momentum -/
/-- **C10.** Applying the collision impulse conserves total linear
momentum: after a successful `handle_collision` on two distinct in-range
bodies with positive masses, the mass-weighted sum of their velocities
equals its value immediately before the impulse was applied (i.e. after
both bodies' advances to `event.time`) — an exact identity of the
real-arithmetic model, for any contact normal. -/
theorem C10_impulse_conserves_momentum (objects : List (Object ℝ))
    (debug : List (Vec2 ℝ)) (ci : CollisionInfo ℝ)
    (hs1 : ci.object_1_col_stamp = (objects.getD ci.object_1 default).updated)
    (hs2 : ci.object_2_col_stamp = (objects.getD ci.object_2 default).updated)
    (hne : ci.object_1 ≠ ci.object_2)
    (hl1 : ci.object_1 < objects.length) (hl2 : ci.object_2 < objects.length)
    (hm1 : 0 < (objects.getD ci.object_1 default).mass)
    (hm2 : 0 < (objects.getD ci.object_2 default).mass) :
    (objects.getD ci.object_1 default).mass •
        ((handle_collision objects debug ci).2.1.getD ci.object_1 default).velocity +
      (objects.getD ci.object_2 default).mass •
        ((handle_collision objects debug ci).2.1.getD ci.object_2 default).velocity =
    (objects.getD ci.object_1 default).mass •
        ((objects.getD ci.object_1 default).update ci.time).velocity +
      (objects.getD ci.object_2 default).mass •
        ((objects.getD ci.object_2 default).update ci.time).velocity := by
  obtain ⟨-, h1, h2, -, -⟩ := handle_collision_valid objects debug ci hs1 hs2 hne hl1 hl2
  rw [h1, h2]
  have hm1' : (objects.getD ci.object_1 default).mass ≠ 0 := ne_of_gt hm1
  have hm2' : (objects.getD ci.object_2 default).mass ≠ 0 := ne_of_gt hm2
  ext
  · simp only [Vec2.divs, Vec2.add_x, Vec2.smul_x, Vec2.sub_x]
    exact momentum_cancel _ _ _ _ _ hm1' hm2'
  · simp only [Vec2.divs, Vec2.add_y, Vec2.smul_y, Vec2.sub_y]
    exact momentum_cancel _ _ _ _ _ hm1' hm2'

/-- Witness for C10 at the concrete collision (equal unit masses,
velocities swap along the normal; total momentum `(1,0)` throughout). -/
theorem C10_impulse_conserves_momentum_witness :
    (List.getD [oA, oB] 0 default).mass •
        ((handle_collision [oA, oB] [] ciAB).2.1.getD 0 default).velocity +
      (List.getD [oA, oB] 1 default).mass •
        ((handle_collision [oA, oB] [] ciAB).2.1.getD 1 default).velocity =
    (List.getD [oA, oB] 0 default).mass •
        ((List.getD [oA, oB] 0 default).update ciAB.time).velocity +
      (List.getD [oA, oB] 1 default).mass •
        ((List.getD [oA, oB] 1 default).update ciAB.time).velocity :=
  C10_impulse_conserves_momentum [oA, oB] [] ciAB (by simp [oA, ciAB])
    (by simp [oB, ciAB]) (by simp [ciAB]) (by simp [ciAB]) (by simp [ciAB])
    (by simp [oA, ciAB]) (by simp [oB, ciAB])

/-- Counterexample to **C3** as stated: in the concrete collision body 0
has acceleration `(1,0)` and the event time is 1.  The code's final
velocity for body 0 is `(0,0)` (impulse `-2` from the pre-advance
relative velocity `(2,0)`), whereas the claim's impulse — computed from
the relative velocity as of `event.time`, after the advance — would be
`-3` and predicts final velocity `(-1,0)`. -/
theorem C3_counterexample :
    ((handle_collision [oA, oB] [] ciAB).2.1.getD 0 default).velocity = ⟨0, 0⟩ ∧
    (oA.update 1).velocity +
        (impulse_postadvance oA oB 1 (contact_normal oB 0) • contact_normal oB 0).divs
          oA.mass =
      ⟨-1, 0⟩ ∧
    ((⟨0, 0⟩ : Vec2 ℝ) ≠ ⟨-1, 0⟩) := by
  refine ⟨by rw [handle_AB_eval.1], ?_, by simp [Vec2.mk.injEq]⟩
  simp only [contact_normal_oB]
  norm_num [impulse_postadvance, oA, oB, Object.update, Vec2.dot, Vec2.divs,
    Vec2.mk.injEq]

/-- **C3 (amended).** When the resolution loop resolves a valid event it
advances both bodies to `event.time` and computes the impulse magnitude
`j = -2·(rel_velocity·normal)/(1/mass_a + 1/mass_b)` from the bodies'
relative velocity *as read when the handler is entered, before the
advance*; `+j·normal/mass_a` is then added to body A's post-advance
velocity and `-j·normal/mass_b` to body B's.  When both accelerations are
zero (as for every body this engine constructs: `Object::new` zeroes
acceleration and nothing mutates it), the pre-advance impulse coincides
with the claim's post-advance impulse. -/
theorem C3_amended_impulse_uses_preadvance_velocity (objects : List (Object ℝ))
    (debug : List (Vec2 ℝ)) (ci : CollisionInfo ℝ)
    (hs1 : ci.object_1_col_stamp = (objects.getD ci.object_1 default).updated)
    (hs2 : ci.object_2_col_stamp = (objects.getD ci.object_2 default).updated)
    (hne : ci.object_1 ≠ ci.object_2)
    (hl1 : ci.object_1 < objects.length) (hl2 : ci.object_2 < objects.length) :
    (handle_collision objects debug ci).1 = true ∧
    ((handle_collision objects debug ci).2.1.getD ci.object_1 default).cur_time =
      ci.time ∧
    ((handle_collision objects debug ci).2.1.getD ci.object_2 default).cur_time =
      ci.time ∧
    ((handle_collision objects debug ci).2.1.getD ci.object_1 default).velocity =
      ((objects.getD ci.object_1 default).update ci.time).velocity +
        (impulse_of (objects.getD ci.object_1 default) (objects.getD ci.object_2 default)
              (contact_normal (objects.getD ci.object_2 default) ci.line_2) •
            contact_normal (objects.getD ci.object_2 default) ci.line_2).divs
          (objects.getD ci.object_1 default).mass ∧
    ((handle_collision objects debug ci).2.1.getD ci.object_2 default).velocity =
      ((objects.getD ci.object_2 default).update ci.time).velocity -
        (impulse_of (objects.getD ci.object_1 default) (objects.getD ci.object_2 default)
              (contact_normal (objects.getD ci.object_2 default) ci.line_2) •
            contact_normal (objects.getD ci.object_2 default) ci.line_2).divs
          (objects.getD ci.object_2 default).mass ∧
    ((objects.getD ci.object_1 default).acceleration = 0 →
      (objects.getD ci.object_2 default).acceleration = 0 →
      impulse_of (objects.getD ci.object_1 default) (objects.getD ci.object_2 default)
          (contact_normal (objects.getD ci.object_2 default) ci.line_2) =
        impulse_postadvance (objects.getD ci.object_1 default)
          (objects.getD ci.object_2 default) ci.time
          (contact_normal (objects.getD ci.object_2 default) ci.line_2)) := by
  obtain ⟨ht, h1, h2, -, -⟩ := handle_collision_valid objects debug ci hs1 hs2 hne hl1 hl2
  refine ⟨ht, ?_, ?_, ?_, ?_, ?_⟩
  · rw [h1]; simp [Object.update]
  · rw [h2]; simp [Object.update]
  · rw [h1]
  · rw [h2]
  · intro ha1 ha2
    unfold impulse_of impulse_postadvance
    rw [Object.update_velocity, Object.update_velocity, ha1, ha2, smul_zero, smul_zero,
      add_zero, add_zero]

/-- Witness for the amended C3 at the concrete collision. -/
theorem C3_amended_impulse_uses_preadvance_velocity_witness :
    ((handle_collision [oA, oB] [] ciAB).2.1.getD 0 default).cur_time = ciAB.time ∧
    ((handle_collision [oA, oB] [] ciAB).2.1.getD 0 default).velocity =
      ((List.getD [oA, oB] 0 default).update ciAB.time).velocity +
        (impulse_of (List.getD [oA, oB] 0 default) (List.getD [oA, oB] 1 default)
              (contact_normal (List.getD [oA, oB] 1 default) ciAB.line_2) •
            contact_normal (List.getD [oA, oB] 1 default) ciAB.line_2).divs
          (List.getD [oA, oB] 0 default).mass :=
  let h := C3_amended_impulse_uses_preadvance_velocity [oA, oB] [] ciAB
    (by simp [oA, ciAB]) (by simp [oB, ciAB]) (by simp [ciAB]) (by simp [ciAB])
    (by simp [ciAB])
  ⟨h.2.1, h.2.2.2.1⟩

/-! ## Claim C6: body times at the end of a frame -/
/-- Counterexample to **C6** as stated: with `time_elapsed = 1`, a live
body ends the frame at `cur_time = 1 + 1/1000`, not `1`, and a newly
spawned body is constructed with `cur_time = 0`, not `1`. -/
theorem C6_counterexample :
    ((update_objects [Object.new 0 0 0 []] (1 : ℚ) (some ⟨0, 0, 0, []⟩)).getD 0
        default).cur_time ≠ 1 ∧
    ((update_objects [Object.new 0 0 0 []] (1 : ℚ) (some ⟨0, 0, 0, []⟩)).getD 1
        default).cur_time ≠ 1 := by
  constructor <;> norm_num [update_objects, Object.new, Object.update]

/-- **C6 (amended).** After `update_objects`, every remaining pre-existing
live body's `cur_time` equals `time_elapsed + 0.001` (the integrator's
target includes a `+0.001` epsilon), and a newly spawned body is
constructed with `cur_time = 0`, not `time_elapsed`. -/
theorem C6_amended_frame_end_times {K : Type} [LinearOrderedField K]
    (objects : List (Object K)) (te : K) (spawn : Option (SpawnReq K)) :
    (∀ i < (objects.filter fun o => !(decide (100 < o.collided))).length,
        ((update_objects objects te spawn).getD i default).cur_time = te + 1 / 1000) ∧
    (∀ s : SpawnReq K, spawn = some s →
        (update_objects objects te spawn).length =
          (objects.filter fun o => !(decide (100 < o.collided))).length + 1 ∧
        ((update_objects objects te spawn).getD
            (objects.filter fun o => !(decide (100 < o.collided))).length
            default).cur_time = 0) := by
  constructor
  · intro i hi
    have hg : (update_objects objects te spawn).getD i default =
        ((objects.filter fun o => !(decide (100 < o.collided))).getD i default).update
          (te + 1 / 1000) := by
      have hi2 : i < ((objects.filter fun o => !(decide (100 < o.collided))).map
          fun o => o.update (te + 1 / 1000)).length := by simpa using hi
      cases spawn with
      | some s =>
        simp only [update_objects, List.getD_eq_getElem?_getD,
          List.getElem?_append_left hi2, List.getElem?_map,
          List.getElem?_eq_getElem hi, Option.map_some', Option.getD_some]
      | none =>
        simp only [update_objects, List.getD_eq_getElem?_getD, List.getElem?_map,
          List.getElem?_eq_getElem hi, Option.map_some', Option.getD_some]
    rw [hg, Object.update_cur_time]
  · intro s hs
    subst hs
    constructor
    · simp [update_objects]
    · unfold update_objects
      rw [List.getD_eq_getElem?_getD, List.getElem?_append_right (by simp)]
      simp [Object.new]

/-- Witness for the amended C6 at a concrete frame over `ℚ`: the
surviving body ends at `1 + 1/1000` and the spawned body at `0`. -/
theorem C6_amended_frame_end_times_witness :
    ((update_objects [Object.new 0 0 0 []] (1 : ℚ) (some ⟨0, 0, 0, []⟩)).getD 0
        default).cur_time = 1 + 1 / 1000 ∧
    ((update_objects [Object.new 0 0 0 []] (1 : ℚ) (some ⟨0, 0, 0, []⟩)).getD 1
        default).cur_time = 0 := by
  have h := C6_amended_frame_end_times [Object.new (0 : Vec2 ℚ) 0 0 []] 1
    (some ⟨0, 0, 0, []⟩)
  exact ⟨h.1 0 (by decide), (h.2 ⟨0, 0, 0, []⟩ rfl).2⟩

/-! ## Claim C9: geometric degeneracies are silently filtered -/
theorem FVal.guard_false_of_not_fin {k1 k2 : K} {r : FVal K}
    (h : ∀ x : K, r ≠ .fin x) :
    (FVal.fle (.fin k1) r && FVal.fle r (.fin k2)) = false := by
  cases r with
  | fin x => exact absurd rfl (h x)
  | pinf => simp [FVal.fle]
  | ninf => simp [FVal.fle]
  | nan => simp [FVal.fle]

/-- Equal (float) slopes make the intercept division degenerate: the
denominator is `0` or `NaN`, so the quotient is never finite. -/
theorem intercept_not_fin_of_slopes_eq (p v a b : Vec2 K)
    (h : slope_1 a b = slope_2 v) : ∀ x : K, intercept p v a b ≠ .fin x := by
  intro x
  unfold intercept
  rw [h]
  cases hs : slope_2 v <;> cases hn : FVal.sub (y_2 p v) (y_1 a b) <;>
    first
    | (simp [FVal.sub, FVal.add, FVal.neg, FVal.div]; split_ifs <;> simp)
    | simp [FVal.sub, FVal.add, FVal.neg, FVal.div]

/-- A zero relative velocity makes `slope_2 = 0/0 = NaN`, which poisons
the whole intercept computation. -/
theorem intercept_not_fin_of_v_zero (p a b : Vec2 K) :
    ∀ x : K, intercept p (0 : Vec2 K) a b ≠ .fin x := by
  intro x
  have hy : y_2 p (0 : Vec2 K) = .nan := by
    unfold y_2 slope_2
    simp [FVal.div, FVal.mul, FVal.sub, FVal.add, FVal.neg]
  unfold intercept
  rw [hy]
  cases FVal.sub (slope_1 a b) (slope_2 0) <;>
    simp [FVal.sub, FVal.add, FVal.neg, FVal.div]

/-- If every (vertex, edge) probe of the inner double loop fails, the
whole scan reports no collision. -/
theorem collide_scan_none_of_check_none (cur te : K) (sp op : List (Vec2 K))
    (v : Vec2 K)
    (h : ∀ (p aj bj : Vec2 K), check cur te p v aj bj = none) :
    collide_scan cur te sp op v = none := by
  unfold collide_scan
  generalize (sp.enum.flatMap fun ip =>
    (List.range op.length).map fun j => (ip.1, ip.2, j)) = l
  induction l with
  | nil => rfl
  | cons hd tl ih =>
    rw [List.foldl_cons]
    have hstep : scan_step cur te op v none hd = none := by
      unfold scan_step
      rw [h hd.2.1 (op.getD hd.2.2 0) (op.getD ((hd.2.2 + 1) % op.length) 0)]
    rw [hstep]
    exact ih

/-- **C9.** Geometric degeneracies in the TOI solver are silently treated
as no collision, never surfaced as errors: (1) for any (vertex, edge)
pair, equal edge/ray slopes (including the NaN slopes produced by the
divisions by zero for vertical edges or rays), a zero relative velocity,
an intersection x-coordinate outside the edge's segment bounds, or a root
time outside the `(cur, te)` window, all make the per-pair `check` return
`none`; and (2) a `check_collision` query between two bodies with equal
velocities (zero relative velocity) returns `None`. -/
theorem C9_degeneracies_silently_filtered :
    (∀ (cur te : ℝ) (p v a b : Vec2 ℝ),
        slope_1 a b = slope_2 v ∨ v = 0 ∨
          (FVal.fle (.fin (min a.x b.x)) (intercept p v a b) &&
            FVal.fle (intercept p v a b) (.fin (max a.x b.x))) = false ∨
          (∀ t : ℝ, coltime cur p v a b = .fin t → ¬(cur < t ∧ t < te)) →
        check cur te p v a b = none) ∧
    (∀ (sharp other : Object ℝ) (te : ℝ),
        sharp.velocity - other.velocity = 0 →
        check_collision sharp other te = none) := by
  have main : ∀ (cur te : ℝ) (p v a b : Vec2 ℝ),
      slope_1 a b = slope_2 v ∨ v = 0 ∨
        (FVal.fle (.fin (min a.x b.x)) (intercept p v a b) &&
          FVal.fle (intercept p v a b) (.fin (max a.x b.x))) = false ∨
        (∀ t : ℝ, coltime cur p v a b = .fin t → ¬(cur < t ∧ t < te)) →
      check cur te p v a b = none := by
    intro cur te p v a b hdeg
    rcases hdeg with hsl | hv | hguard | htime
    · unfold check
      rw [FVal.guard_false_of_not_fin (intercept_not_fin_of_slopes_eq p v a b hsl)]
      rfl
    · subst hv
      unfold check
      rw [FVal.guard_false_of_not_fin (intercept_not_fin_of_v_zero p a b)]
      rfl
    · unfold check
      rw [hguard]
      rfl
    · unfold check
      cases hguard : (FVal.fle (.fin (min a.x b.x)) (intercept p v a b) &&
          FVal.fle (intercept p v a b) (.fin (max a.x b.x)))
      · rfl
      · simp only [hguard, if_true]
        cases hct : coltime cur p v a b with
        | fin t => simp [htime t hct]
        | pinf => rfl
        | ninf => rfl
        | nan => rfl
  refine ⟨main, ?_⟩
  intro sharp other te hv
  unfold check_collision
  rw [hv]
  exact collide_scan_none_of_check_none _ _ _ _ _ fun p aj bj =>
    main _ _ p 0 aj bj (Or.inr (Or.inl rfl))

/-- Witness for C9: a concrete parallel configuration (edge slope 1, ray
slope 1) yields no collision, and two concrete equal-velocity bodies
yield no collision. -/
theorem C9_degeneracies_silently_filtered_witness :
    check (0 : ℝ) 10 ⟨0, 0⟩ ⟨1, 1⟩ ⟨0, 1⟩ ⟨1, 2⟩ = none ∧
    check_collision (Object.new 0 ⟨3, 4⟩ 17 [⟨0, 0⟩]) (Object.new ⟨1, 1⟩ ⟨3, 4⟩ 5 [⟨0, 0⟩, ⟨1, 0⟩])
      9 = none :=
  ⟨C9_degeneracies_silently_filtered.1 0 10 ⟨0, 0⟩ ⟨1, 1⟩ ⟨0, 1⟩ ⟨1, 2⟩
      (Or.inl (by norm_num [slope_1, slope_2, FVal.div])),
    C9_degeneracies_silently_filtered.2 _ _ 9
      (by simp [Object.new])⟩

theorem CollisionData.ltb_iff_key_lt (c d : CollisionData K) :
    c.ltb d = true ↔ c.key < d.key := by
  simp [CollisionData.ltb, CollisionData.key, Prod.Lex.lt_iff]

theorem CollisionData.minD_eq_or (c d : CollisionData K) :
    c.minD d = c ∨ c.minD d = d := by
  unfold CollisionData.minD
  split_ifs <;> simp

theorem CollisionData.key_minD_le_left (c d : CollisionData K) :
    (c.minD d).key ≤ c.key := by
  unfold CollisionData.minD
  split_ifs with h
  · exact le_of_lt ((CollisionData.ltb_iff_key_lt d c).1 h)
  · exact le_refl _

theorem CollisionData.key_minD_le_right (c d : CollisionData K) :
    (c.minD d).key ≤ d.key := by
  unfold CollisionData.minD
  split_ifs with h
  · exact le_refl _
  · exact le_of_not_lt fun hlt => h ((CollisionData.ltb_iff_key_lt d c).2 hlt)

theorem CollisionData.time_le_of_key_le {c d : CollisionData K}
    (h : c.key ≤ d.key) : c.time ≤ d.time := by
  rcases (Prod.Lex.le_iff _ _).1 h with hlt | ⟨heq, -⟩
  · exact le_of_lt hlt
  · exact le_of_eq heq

theorem scan_step_eq_probe (cur te : K) (op : List (Vec2 K)) (v : Vec2 K)
    (acc : Option (CollisionData K)) (t : ℕ × Vec2 K × ℕ) :
    scan_step cur te op v acc t =
      match probe cur te op v t.2.1 t.2.2 with
      | some time =>
        match acc with
        | none => some ⟨time, t.1, t.2.2⟩
        | some c => some (c.minD ⟨time, t.1, t.2.2⟩)
      | none => acc := rfl

/-- Full characterisation of the scan's fold over an arbitrary entry list:
it returns `none` iff the accumulator was `none` and every probe fails,
and a `some d` result is either the accumulator or a successful probe, and
is lexicographically minimal among the accumulator and all successful
probes. -/
theorem foldl_scan_step_spec (cur te : K) (op : List (Vec2 K)) (v : Vec2 K) :
    ∀ (l : List (ℕ × Vec2 K × ℕ)) (acc : Option (CollisionData K)),
    (l.foldl (scan_step cur te op v) acc = none ↔
      acc = none ∧ ∀ x ∈ l, probe cur te op v x.2.1 x.2.2 = none) ∧
    (∀ d, l.foldl (scan_step cur te op v) acc = some d →
      (acc = some d ∨ ∃ x ∈ l, x.1 = d.point_1 ∧ x.2.2 = d.line_2 ∧
          probe cur te op v x.2.1 x.2.2 = some d.time) ∧
      (∀ x ∈ l, ∀ t, probe cur te op v x.2.1 x.2.2 = some t →
          d.key ≤ CollisionData.key ⟨t, x.1, x.2.2⟩) ∧
      (∀ c, acc = some c → d.key ≤ c.key)) := by
  intro l
  induction l with
  | nil =>
    intro acc
    refine ⟨by simp, ?_⟩
    intro d hd
    simp only [List.foldl_nil] at hd
    exact ⟨Or.inl hd, by simp, fun c hc => by rw [hd] at hc; cases hc; exact le_refl _⟩
  | cons x l ih =>
    intro acc
    rw [List.foldl_cons]
    cases hp : probe cur te op v x.2.1 x.2.2 with
    | none =>
      have hstep : scan_step cur te op v acc x = acc := by
        rw [scan_step_eq_probe, hp]
      rw [hstep]
      constructor
      · rw [(ih acc).1]
        constructor
        · rintro ⟨ha, hall⟩
          exact ⟨ha, by
            intro y hy
            rcases List.mem_cons.1 hy with rfl | hy2
            · exact hp
            · exact hall y hy2⟩
        · rintro ⟨ha, hall⟩
          exact ⟨ha, fun y hy => hall y (List.mem_cons.2 (Or.inr hy))⟩
      · intro d hd
        obtain ⟨hsrc, hmin, hacc⟩ := (ih acc).2 d hd
        refine ⟨?_, ?_, hacc⟩
        · rcases hsrc with h | ⟨y, hy, hrest⟩
          · exact Or.inl h
          · exact Or.inr ⟨y, List.mem_cons.2 (Or.inr hy), hrest⟩
        · intro y hy t ht
          rcases List.mem_cons.1 hy with rfl | hy2
          · rw [hp] at ht; cases ht
          · exact hmin y hy2 t ht
    | some time =>
      cases acc with
      | none =>
        have hstep : scan_step cur te op v none x =
            some (⟨time, x.1, x.2.2⟩ : CollisionData K) := by
          rw [scan_step_eq_probe, hp]
        rw [hstep]
        constructor
        · rw [(ih _).1]
          simp [hp, List.forall_mem_cons]
        · intro d hd
          obtain ⟨hsrc, hmin, hacc⟩ := (ih _).2 d hd
          have hkey : d.key ≤ CollisionData.key ⟨time, x.1, x.2.2⟩ := hacc _ rfl
          refine ⟨?_, ?_, fun c hc => by cases hc⟩
          · rcases hsrc with h | ⟨y, hy, hrest⟩
            · cases h
              exact Or.inr ⟨x, List.mem_cons_self x l, rfl, rfl, hp⟩
            · exact Or.inr ⟨y, List.mem_cons.2 (Or.inr hy), hrest⟩
          · intro y hy t ht
            rcases List.mem_cons.1 hy with rfl | hy2
            · rw [hp] at ht
              cases ht
              exact hkey
            · exact hmin y hy2 t ht
      | some c =>
        have hstep : scan_step cur te op v (some c) x =
            some (c.minD ⟨time, x.1, x.2.2⟩) := by
          rw [scan_step_eq_probe, hp]
        rw [hstep]
        constructor
        · rw [(ih _).1]
          simp [hp, List.forall_mem_cons]
        · intro d hd
          obtain ⟨hsrc, hmin, hacc⟩ := (ih _).2 d hd
          have h1 : d.key ≤ (c.minD ⟨time, x.1, x.2.2⟩).key := hacc _ rfl
          have hkx : d.key ≤ CollisionData.key ⟨time, x.1, x.2.2⟩ :=
            le_trans h1 (CollisionData.key_minD_le_right c ⟨time, x.1, x.2.2⟩)
          have hkc : d.key ≤ c.key :=
            le_trans h1 (CollisionData.key_minD_le_left c ⟨time, x.1, x.2.2⟩)
          refine ⟨?_, ?_, fun c2 hc2 => by cases hc2; exact hkc⟩
          · rcases hsrc with h | ⟨y, hy, hrest⟩
            · cases h
              rcases CollisionData.minD_eq_or c ⟨time, x.1, x.2.2⟩ with he | he
              · exact Or.inl (by rw [he])
              · exact Or.inr ⟨x, List.mem_cons_self x l, by rw [he], by rw [he],
                  by rw [he]; exact hp⟩
            · exact Or.inr ⟨y, List.mem_cons.2 (Or.inr hy), hrest⟩
          · intro y hy t ht
            rcases List.mem_cons.1 hy with rfl | hy2
            · rw [hp] at ht
              cases ht
              exact hkx
            · exact hmin y hy2 t ht

theorem mem_scan_pairs {sp : List (Vec2 K)} {n : ℕ} {x : ℕ × Vec2 K × ℕ} :
    (x ∈ sp.enum.flatMap fun ip => (List.range n).map fun j => (ip.1, ip.2, j)) ↔
      x.1 < sp.length ∧ x.2.1 = sp.getD x.1 0 ∧ x.2.2 < n := by
  obtain ⟨i, p, j⟩ := x
  simp only [List.mem_flatMap, List.mem_map, List.mem_range, Prod.mk.injEq]
  constructor
  · rintro ⟨⟨i2, p2⟩, hmem, j2, hj2, rfl, rfl, rfl⟩
    rw [List.mk_mem_enum_iff_getElem?] at hmem
    obtain ⟨hlen, hval⟩ := List.getElem?_eq_some.1 hmem
    refine ⟨hlen, ?_, hj2⟩
    rw [List.getD_eq_getElem?_getD, List.getElem?_eq_getElem hlen, hval, Option.getD_some]
  · rintro ⟨hi, hp, hj⟩
    refine ⟨(i, p), ?_, j, hj, rfl, rfl, rfl⟩
    rw [List.mk_mem_enum_iff_getElem?, List.getElem?_eq_getElem hi]
    rw [List.getD_eq_getElem?_getD, List.getElem?_eq_getElem hi, Option.getD_some] at hp
    rw [hp]

/-- `collide_scan` returns `none` exactly when every (vertex, edge) probe
fails. -/
theorem collide_scan_none_iff (cur te : K) (sp op : List (Vec2 K)) (v : Vec2 K) :
    collide_scan cur te sp op v = none ↔
      ∀ i j, i < sp.length → j < op.length →
        probe cur te op v (sp.getD i 0) j = none := by
  unfold collide_scan
  rw [(foldl_scan_step_spec cur te op v _ none).1]
  constructor
  · rintro ⟨-, h⟩ i j hi hj
    exact h (i, sp.getD i 0, j) (mem_scan_pairs.2 ⟨hi, rfl, hj⟩)
  · intro h
    refine ⟨rfl, ?_⟩
    intro x hx
    obtain ⟨h1, h2, h3⟩ := mem_scan_pairs.1 hx
    have h4 := h x.1 x.2.2 h1 h3
    rwa [← h2] at h4

/-- A `some` result of `collide_scan` is a successful probe at in-range
indices, and its time is minimal among all successful probes. -/
theorem collide_scan_some_spec (cur te : K) (sp op : List (Vec2 K)) (v : Vec2 K)
    (d : CollisionData K) (hd : collide_scan cur te sp op v = some d) :
    d.point_1 < sp.length ∧ d.line_2 < op.length ∧
    probe cur te op v (sp.getD d.point_1 0) d.line_2 = some d.time ∧
    ∀ i j t, i < sp.length → j < op.length →
      probe cur te op v (sp.getD i 0) j = some t → d.time ≤ t := by
  unfold collide_scan at hd
  obtain ⟨hsrc, hmin, -⟩ := (foldl_scan_step_spec cur te op v _ none).2 d hd
  rcases hsrc with h | ⟨x, hx, h1, h2, h3⟩
  · cases h
  · obtain ⟨hi, hp2, hj⟩ := mem_scan_pairs.1 hx
    refine ⟨h1 ▸ hi, h2 ▸ hj, ?_, ?_⟩
    · rw [← h1, ← h2, ← hp2]
      exact h3
    · intro i j t hi2 hj2 hpt
      exact CollisionData.time_le_of_key_le
        (hmin (i, sp.getD i 0, j) (mem_scan_pairs.2 ⟨hi2, rfl, hj2⟩) t hpt)

/-- **C1 (amended).** `check_collision(sharp, other)` returns `Some`
iff some (vertex of sharp, edge of other) pair passes the acceptance test
(`probe`, i.e. `check`): intersection x-coordinate within the edge's
segment bounds and time strictly inside the *open* interval
`(current_time, time_elapsed)` — the source uses `time < self.time_elapsed`,
so the right endpoint is excluded, unlike the claim's right-closed
interval.  In the `Some` case the returned record is itself a passing pair
and its time is the minimum over all passing pairs. -/
theorem C1_amended_check_collision_spec (sharp other : Object ℝ) (te : ℝ) :
    (check_collision sharp other te = none ↔
      ∀ i j, i < (sharp_pts sharp other).length →
        j < (other_pts sharp other).length →
        probe (query_cur sharp other) te (other_pts sharp other)
          (sharp.velocity - other.velocity) ((sharp_pts sharp other).getD i 0) j =
          none) ∧
    (∀ d, check_collision sharp other te = some d →
      d.point_1 < (sharp_pts sharp other).length ∧
      d.line_2 < (other_pts sharp other).length ∧
      probe (query_cur sharp other) te (other_pts sharp other)
        (sharp.velocity - other.velocity)
        ((sharp_pts sharp other).getD d.point_1 0) d.line_2 = some d.time ∧
      ∀ i j t, i < (sharp_pts sharp other).length →
        j < (other_pts sharp other).length →
        probe (query_cur sharp other) te (other_pts sharp other)
          (sharp.velocity - other.velocity) ((sharp_pts sharp other).getD i 0) j =
          some t →
        d.time ≤ t) :=
  ⟨collide_scan_none_iff _ _ _ _ _,
    fun d hd => collide_scan_some_spec _ _ _ _ _ d hd⟩

theorem query_cur_W : query_cur sharpW otherW = 0 := by
  simp [query_cur, sharpW, otherW, Object.new]

theorem sharpW_pts : sharp_pts sharpW otherW = [⟨0, 0⟩] := by
  simp [sharp_pts, sharpW, otherW, Object.new, query_cur, rotate_rad]

theorem otherW_pts : other_pts sharpW otherW = [⟨2, -1⟩, ⟨3, 1⟩] := by
  simp [other_pts, sharpW, otherW, Object.new, query_cur, rotate_rad]

theorem vrel_W : sharpW.velocity - otherW.velocity = ⟨1, 0⟩ := by
  simp [sharpW, otherW, Object.new]

theorem probeW0 (te : ℝ) :
    probe 0 te [⟨2, -1⟩, ⟨3, 1⟩] ⟨1, 0⟩ ⟨0, 0⟩ 0 =
      if (5 / 2 : ℝ) < te then some (5 / 2) else none := by
  norm_num [probe, check, intercept, coltime, slope_1, slope_2, y_1, y_2,
    FVal.div, FVal.sub, FVal.add, FVal.neg, FVal.mul, FVal.fle]

theorem probeW1 (te : ℝ) :
    probe 0 te [⟨2, -1⟩, ⟨3, 1⟩] ⟨1, 0⟩ ⟨0, 0⟩ 1 =
      if (5 / 2 : ℝ) < te then some (5 / 2) else none := by
  norm_num [probe, check, intercept, coltime, slope_1, slope_2, y_1, y_2,
    FVal.div, FVal.sub, FVal.add, FVal.neg, FVal.mul, FVal.fle]

/-- Full evaluation of the concrete narrow-phase query as a function of
the frame end time `te`. -/
theorem check_collisionW (te : ℝ) :
    check_collision sharpW otherW te =
      if (5 / 2 : ℝ) < te then some ⟨5 / 2, 0, 0⟩ else none := by
  unfold check_collision
  rw [sharpW_pts, otherW_pts, query_cur_W, vrel_W]
  show ([(0, (⟨0, 0⟩ : Vec2 ℝ), 0), (0, ⟨0, 0⟩, 1)].foldl
    (scan_step 0 te [⟨2, -1⟩, ⟨3, 1⟩] ⟨1, 0⟩) none) = _
  rw [List.foldl_cons, List.foldl_cons, List.foldl_nil]
  simp only [scan_step_eq_probe]
  rw [probeW0 te, probeW1 te]
  by_cases h : (5 / 2 : ℝ) < te
  · simp only [if_pos h]
    norm_num [CollisionData.minD, CollisionData.ltb]
  · simp only [if_neg h]

/-- Counterexample to **C1** as stated: with `time_elapsed = 5/2` the
vertex reaches the edge exactly at time `5/2 = time_elapsed`.  The claim's
right-closed window `(cur, te]` accepts this root (the claim-worded test
returns `Some (5/2)`), but `check_collision` returns `None` because the
source tests `time < self.time_elapsed` strictly. -/
theorem C1_counterexample :
    check_collision sharpW otherW (5 / 2 : ℝ) = none ∧
    check_specC1 (query_cur sharpW otherW) (5 / 2 : ℝ)
      ((sharp_pts sharpW otherW).getD 0 0) (sharpW.velocity - otherW.velocity)
      ((other_pts sharpW otherW).getD 0 0) ((other_pts sharpW otherW).getD 1 0) =
      some (5 / 2) := by
  constructor
  · rw [check_collisionW]
    norm_num
  · rw [sharpW_pts, otherW_pts, query_cur_W, vrel_W]
    norm_num [check_specC1, intercept, coltime, slope_1, slope_2, y_1, y_2,
      FVal.div, FVal.sub, FVal.add, FVal.neg, FVal.mul, FVal.fle]

/-- Witness for the amended C1: with `te = 5` the query returns
`Some ⟨5/2, 0, 0⟩`, which the theorem certifies as a passing pair of
minimal time. -/
theorem C1_amended_check_collision_spec_witness :
    (⟨5 / 2, 0, 0⟩ : CollisionData ℝ).point_1 < (sharp_pts sharpW otherW).length ∧
    (⟨5 / 2, 0, 0⟩ : CollisionData ℝ).line_2 < (other_pts sharpW otherW).length ∧
    probe (query_cur sharpW otherW) 5 (other_pts sharpW otherW)
      (sharpW.velocity - otherW.velocity)
      ((sharp_pts sharpW otherW).getD (⟨5 / 2, 0, 0⟩ : CollisionData ℝ).point_1 0)
      (⟨5 / 2, 0, 0⟩ : CollisionData ℝ).line_2 =
      some (⟨5 / 2, 0, 0⟩ : CollisionData ℝ).time ∧
    ∀ i j t, i < (sharp_pts sharpW otherW).length →
      j < (other_pts sharpW otherW).length →
      probe (query_cur sharpW otherW) 5 (other_pts sharpW otherW)
        (sharpW.velocity - otherW.velocity) ((sharp_pts sharpW otherW).getD i 0) j =
        some t →
      (⟨5 / 2, 0, 0⟩ : CollisionData ℝ).time ≤ t :=
  (C1_amended_check_collision_spec sharpW otherW 5).2 ⟨5 / 2, 0, 0⟩
    (by rw [check_collisionW]; norm_num)

theorem tvol_oSmall : traversed_volume oSmall 1 = [⟨1, 0⟩, ⟨2, 0⟩] := by
  norm_num [traversed_volume, oSmall, Object.new, Object.update, rotate_rad,
    convex_hull, List.insertionSort, List.orderedInsert, yxLe, dedupConsec,
    grahamScan, scanPops, angle_about, atan2le, angleClass, popCond,
    Vec2.cross, Vec2.dot]

theorem tvol_oBig : traversed_volume oBig 1 = [⟨0, 0⟩, ⟨3, 0⟩] := by
  norm_num [traversed_volume, oBig, Object.new, Object.update, rotate_rad,
    convex_hull, List.insertionSort, List.orderedInsert, yxLe, dedupConsec,
    grahamScan, scanPops, angle_about, atan2le, angleClass, popCond,
    Vec2.cross, Vec2.dot]

theorem cxb_oSmall : compute_x_bounds oSmall 1 = (1, 2) := by
  rw [compute_x_bounds, tvol_oSmall]
  norm_num

theorem cxb_oBig : compute_x_bounds oBig 1 = (0, 3) := by
  rw [compute_x_bounds, tvol_oBig]
  norm_num

theorem seed_bounds_W : seed_bounds [oSmall, oBig] 1 = [(1, 2, 0), (0, 3, 1)] := by
  simp [seed_bounds, List.enum, List.enumFrom, cxb_oSmall, cxb_oBig]

theorem seed_candidates_W : seed_candidates [oSmall, oBig] 1 0 = [0] := by
  unfold seed_candidates
  rw [seed_bounds_W]
  norm_num [queryCandidates, rangeQuery, entryLe, entryLt, List.filter]

/-- Counterexample to **C2** as stated: `oBig`'s swept X-interval `[0, 3]`
strictly contains `oSmall`'s `[1, 2]` — the intervals overlap — yet the
seed-pass query for body 0 returns only `[0]`: body 1 is omitted, because
neither of its entry keys (`min_x = 0`, `max_x = 3`) falls in the scanned
range `[(1,2,0), (2,0,0))`. -/
theorem C2_counterexample :
    intervalsOverlap (compute_x_bounds oSmall 1) (compute_x_bounds oBig 1) ∧
    (1 : ℕ) ∉ seed_candidates [oSmall, oBig] 1 0 := by
  rw [cxb_oSmall, cxb_oBig, seed_candidates_W]
  norm_num [intervalsOverlap]

/-- **C2 (amended).** The broad-phase candidate query (the same range
scan serves the per-frame seed pass and the incremental re-query) never
omits a body one of whose swept-interval endpoints lies strictly between
the query body's `min_x` and `max_x`: an entry `(min_j, max_j, j)` of the
min-ordered set with `own.min_x < min_j < own.max_x`, or an entry
`(max_j, min_j, j)` of the max-ordered set with
`own.min_x < max_j < own.max_x`, always contributes `j`.  Overlapping
bodies whose interval strictly contains the query interval (or touches it
only at the endpoints) can be omitted, as `C2_counterexample` shows. -/
theorem C2_amended_query_finds_strict_interior_endpoints {K : Type}
    [LinearOrderedField K] (entriesL entriesR : List (K × K × ℕ))
    (own : K × K × ℕ) (minj maxj : K) (j : ℕ)
    (h : ((minj, maxj, j) ∈ entriesL ∧ own.1 < minj ∧ minj < own.2.1) ∨
      ((maxj, minj, j) ∈ entriesR ∧ own.1 < maxj ∧ maxj < own.2.1)) :
    j ∈ queryCandidates entriesL entriesR own := by
  unfold queryCandidates rangeQuery
  rcases h with ⟨hmem, hlo, hhi⟩ | ⟨hmem, hlo, hhi⟩
  · refine List.mem_append_left _ (List.mem_map.2 ⟨(minj, maxj, j), ?_, rfl⟩)
    refine List.mem_filter.2 ⟨hmem, ?_⟩
    simp only [Bool.and_eq_true, decide_eq_true_eq]
    exact ⟨Or.inl (Or.inl hlo), Or.inl hhi⟩
  · refine List.mem_append_right _ (List.mem_map.2 ⟨(maxj, minj, j), ?_, rfl⟩)
    refine List.mem_filter.2 ⟨hmem, ?_⟩
    simp only [Bool.and_eq_true, decide_eq_true_eq]
    exact ⟨Or.inl (Or.inl hlo), Or.inl hhi⟩

/-- Witness for the amended C2 over `ℚ`: an entry with `min_x = 2`
strictly inside the query interval `[0, 10]` is always found. -/
theorem C2_amended_query_finds_strict_interior_endpoints_witness :
    (1 : ℕ) ∈ queryCandidates [((0 : ℚ), 1, 0), (2, 3, 1)] [(1, 0, 0), (3, 2, 1)]
      (0, 10, 0) :=
  C2_amended_query_finds_strict_interior_endpoints _ _ _ 2 3 1
    (Or.inl ⟨by decide, by decide, by decide⟩)

/-- The `project` fold returns a lower bound of its initial minimum and all
scanned dot products, and an upper bound of its initial maximum and all
scanned dot products. -/
theorem scanMM_bounds (ax : Vec2 ℝ) (t : List (Vec2 ℝ)) :
    ∀ mn mx : ℝ,
      (t.foldl (scanMM ax) (mn, mx)).1 ≤ mn ∧ mx ≤ (t.foldl (scanMM ax) (mn, mx)).2 ∧
      ∀ p ∈ t, (t.foldl (scanMM ax) (mn, mx)).1 ≤ ax.dot p ∧
        ax.dot p ≤ (t.foldl (scanMM ax) (mn, mx)).2 := by
  induction t with
  | nil => intro mn mx; exact ⟨le_refl _, le_refl _, by simp⟩
  | cons v t ih =>
    intro mn mx
    rw [List.foldl_cons]
    have h := ih (scanMM ax (mn, mx) v).1 (scanMM ax (mn, mx) v).2
    rw [Prod.mk.eta] at h
    have h1 : (scanMM ax (mn, mx) v).1 ≤ mn := by
      simp only [scanMM]
      split_ifs with hlt
      · linarith
      · exact le_refl _
    have hv1 : (scanMM ax (mn, mx) v).1 ≤ ax.dot v := by
      simp only [scanMM]
      split_ifs with hlt
      · exact le_refl _
      · linarith
    have h2 : mx ≤ (scanMM ax (mn, mx) v).2 := by
      simp only [scanMM]
      split_ifs with hlt
      · linarith
      · exact le_refl _
    have hv2 : ax.dot v ≤ (scanMM ax (mn, mx) v).2 := by
      simp only [scanMM]
      split_ifs with hlt
      · exact le_refl _
      · linarith
    refine ⟨le_trans h.1 h1, le_trans h2 h.2.1, ?_⟩
    intro p hp
    rcases List.mem_cons.1 hp with rfl | hp'
    · exact ⟨le_trans h.1 hv1, le_trans hv2 h.2.1⟩
    · exact h.2.2 p hp'

/-- Every hull vertex's dot product with the axis lies between the two
components of `project`. -/
theorem project_le_dot (ax : Vec2 ℝ) {hull : List (Vec2 ℝ)} {p : Vec2 ℝ} (hp : p ∈ hull) :
    (project hull ax).1 ≤ ax.dot p ∧ ax.dot p ≤ (project hull ax).2 := by
  cases hull with
  | nil => cases hp
  | cons h t =>
    have hb := scanMM_bounds ax t (ax.dot h) (ax.dot h)
    have hpr : project (h :: t) ax = t.foldl (scanMM ax) (ax.dot h, ax.dot h) := rfl
    rw [hpr]
    rcases List.mem_cons.1 hp with rfl | hp'
    · exact ⟨hb.1, hb.2.1⟩
    · exact hb.2.2 p hp'

/-- Two hulls are not separated on an axis as soon as each projection
interval has a point at or beyond the other's corresponding endpoint. -/
theorem not_separatedOn_of_wit (h1 h2 : List (Vec2 ℝ)) (ax pA pA' pB pB' : Vec2 ℝ)
    (hA : pA ∈ h1) (hA' : pA' ∈ h1) (hB : pB ∈ h2) (hB' : pB' ∈ h2)
    (hle1 : ax.dot pB ≤ ax.dot pA) (hle2 : ax.dot pA' ≤ ax.dot pB') :
    ¬separatedOn h1 h2 ax := by
  intro hsep
  rcases hsep with hs | hs
  · linarith [(project_le_dot ax hB).1, (project_le_dot ax hA).2]
  · linarith [(project_le_dot ax hA').1, (project_le_dot ax hB').2]

/-- Rotation preserves unit length. -/
theorem rotate_preserves_unit {v : Vec2 ℝ} (hv : v.x * v.x + v.y * v.y = 1) (a : ℝ) :
    (rotate_rad v a).length_squared = 1 := by
  unfold rotate_rad Vec2.length_squared
  dsimp only
  linear_combination (v.x * v.x + v.y * v.y) * Real.sin_sq_add_cos_sq a + hv

/-- Normalising a unit vector is the identity. -/
theorem normalize_of_unit {v : Vec2 ℝ} (h : v.length_squared = 1) : normalize v = v := by
  unfold normalize
  rw [h, Real.sqrt_one, div_one]
  exact Vec2.ext (one_mul v.x) (one_mul v.y)

/-- The four axes the source tests for `sqA`: the edge vectors rotated by
minus ninety *radians*. -/
theorem sat_axes_sqA :
    sat_axes sqA = [⟨Real.cos 90, -Real.sin 90⟩, ⟨Real.sin 90, Real.cos 90⟩,
      ⟨-Real.cos 90, Real.sin 90⟩, ⟨-Real.sin 90, -Real.cos 90⟩] := by
  have hn1 : normalize (rotate_rad ⟨1, 0⟩ (-90)) = rotate_rad ⟨1, 0⟩ (-90) :=
    normalize_of_unit (rotate_preserves_unit (by norm_num) _)
  have hn2 : normalize (rotate_rad ⟨0, 1⟩ (-90)) = rotate_rad ⟨0, 1⟩ (-90) :=
    normalize_of_unit (rotate_preserves_unit (by norm_num) _)
  have hn3 : normalize (rotate_rad ⟨-1, 0⟩ (-90)) = rotate_rad ⟨-1, 0⟩ (-90) :=
    normalize_of_unit (rotate_preserves_unit (by norm_num) _)
  have hn4 : normalize (rotate_rad ⟨0, -1⟩ (-90)) = rotate_rad ⟨0, -1⟩ (-90) :=
    normalize_of_unit (rotate_preserves_unit (by norm_num) _)
  simp only [sat_axes, sqA, List.length_cons, List.length_nil]
  norm_num [List.range_succ]
  rw [hn1, hn2, hn3, hn4]
  unfold rotate_rad
  norm_num [Real.cos_neg, Real.sin_neg]

/-- `sqB` has the same edge vectors as `sqA`, hence the same axes. -/
theorem sat_axes_sqB :
    sat_axes sqB = [⟨Real.cos 90, -Real.sin 90⟩, ⟨Real.sin 90, Real.cos 90⟩,
      ⟨-Real.cos 90, Real.sin 90⟩, ⟨-Real.sin 90, -Real.cos 90⟩] := by
  have hn1 : normalize (rotate_rad ⟨1, 0⟩ (-90)) = rotate_rad ⟨1, 0⟩ (-90) :=
    normalize_of_unit (rotate_preserves_unit (by norm_num) _)
  have hn2 : normalize (rotate_rad ⟨0, 1⟩ (-90)) = rotate_rad ⟨0, 1⟩ (-90) :=
    normalize_of_unit (rotate_preserves_unit (by norm_num) _)
  have hn3 : normalize (rotate_rad ⟨-1, 0⟩ (-90)) = rotate_rad ⟨-1, 0⟩ (-90) :=
    normalize_of_unit (rotate_preserves_unit (by norm_num) _)
  have hn4 : normalize (rotate_rad ⟨0, -1⟩ (-90)) = rotate_rad ⟨0, -1⟩ (-90) :=
    normalize_of_unit (rotate_preserves_unit (by norm_num) _)
  simp only [sat_axes, sqB, List.length_cons, List.length_nil]
  norm_num [List.range_succ]
  rw [hn1, hn2, hn3, hn4]
  unfold rotate_rad
  norm_num [Real.cos_neg, Real.sin_neg]

/-- The quarter angle `22.5 - 7*pi` of `90 - 28*pi` lies in
`(0.5088, 0.5089)`. -/
theorem q90_bounds : (0.5088 : ℝ) < 22.5 - 7 * Real.pi ∧ (22.5 : ℝ) - 7 * Real.pi < 0.5089 := by
  have h1 := Real.pi_gt_d6
  have h2 := Real.pi_lt_d6
  norm_num at h1 h2 ⊢
  constructor <;> linarith

/-- Taylor bound for the cosine of the quarter angle. -/
theorem cosq_bounds_aux (q : ℝ) (hql : (0.5088 : ℝ) < q) (hqu : q < 0.5089) :
    (0.867 : ℝ) < Real.cos q ∧ Real.cos q < 0.8741 := by
  have habs : |q| ≤ 1 := by rw [abs_le]; constructor <;> linarith
  have hb := Real.cos_bound habs
  rw [abs_le] at hb
  have hq2l : (0.2588 : ℝ) < q ^ 2 := by nlinarith
  have hq2u : q ^ 2 < 0.259 := by nlinarith
  have h4 : |q| ^ 4 = (q ^ 2) ^ 2 := by
    rw [show (4 : ℕ) = 2 * 2 from rfl, pow_mul, sq_abs]
  have hq4u : |q| ^ 4 < 0.06709 := by rw [h4]; nlinarith
  have hq4l : (0 : ℝ) ≤ |q| ^ 4 := by positivity
  constructor <;> nlinarith [hb.1, hb.2]

/-- Taylor bound for the sine of the quarter angle. -/
theorem sinq_bounds_aux (q : ℝ) (hql : (0.5088 : ℝ) < q) (hqu : q < 0.5089) :
    (0.4833 : ℝ) < Real.sin q ∧ Real.sin q < 0.4905 := by
  have habs : |q| ≤ 1 := by rw [abs_le]; constructor <;> linarith
  have hb := Real.sin_bound habs
  rw [abs_le] at hb
  have hq2l : (0.2588 : ℝ) < q ^ 2 := by nlinarith
  have hq2u : q ^ 2 < 0.259 := by nlinarith
  have hq3l : (0.13167 : ℝ) < q ^ 3 := by nlinarith
  have hq3u : q ^ 3 < 0.13182 := by nlinarith
  have h4 : |q| ^ 4 = (q ^ 2) ^ 2 := by
    rw [show (4 : ℕ) = 2 * 2 from rfl, pow_mul, sq_abs]
  have hq4u : |q| ^ 4 < 0.06709 := by rw [h4]; nlinarith
  have hq4l : (0 : ℝ) ≤ |q| ^ 4 := by positivity
  constructor <;> nlinarith [hb.1, hb.2]

/-- Interval bounds for `cos 90` and `sin 90` (radians) from the quarter
angle by two double-angle steps. -/
theorem cos_sin_90_bounds_aux (q : ℝ) (hq : (90 : ℝ) = 4 * q + (14 : ℤ) * (2 * Real.pi))
    (hql : (0.5088 : ℝ) < q) (hqu : q < 0.5089) :
    ((-0.494 : ℝ) < Real.cos 90 ∧ Real.cos 90 < -0.442) ∧
      ((0.843 : ℝ) < Real.sin 90 ∧ Real.sin 90 < 0.906) := by
  obtain ⟨hcl, hcu⟩ := cosq_bounds_aux q hql hqu
  obtain ⟨hsl, hsu⟩ := sinq_bounds_aux q hql hqu
  have hc : Real.cos 90 = Real.cos (4 * q) := by
    rw [hq, Real.cos_add_int_mul_two_pi]
  have hs : Real.sin 90 = Real.sin (4 * q) := by
    rw [hq, Real.sin_add_int_mul_two_pi]
  have h2c : Real.cos (2 * q) = 2 * Real.cos q ^ 2 - 1 := Real.cos_two_mul q
  have h2s : Real.sin (2 * q) = 2 * Real.sin q * Real.cos q := Real.sin_two_mul q
  have h4c : Real.cos (4 * q) = 2 * Real.cos (2 * q) ^ 2 - 1 := by
    rw [show (4 : ℝ) * q = 2 * (2 * q) by ring, Real.cos_two_mul]
  have h4s : Real.sin (4 * q) = 2 * Real.sin (2 * q) * Real.cos (2 * q) := by
    rw [show (4 : ℝ) * q = 2 * (2 * q) by ring, Real.sin_two_mul]
  have hc2l : (0.5033 : ℝ) < Real.cos (2 * q) := by rw [h2c]; nlinarith
  have hc2u : Real.cos (2 * q) < 0.5282 := by rw [h2c]; nlinarith
  have hs2l : (0.838 : ℝ) < Real.sin (2 * q) := by rw [h2s]; nlinarith
  have hs2u : Real.sin (2 * q) < 0.8575 := by rw [h2s]; nlinarith
  rw [hc, hs, h4c, h4s]
  exact ⟨⟨by nlinarith, by nlinarith⟩, ⟨by nlinarith, by nlinarith⟩⟩

/-- `cos 90` (ninety *radians*) lies in `(-0.494, -0.442)`. -/
theorem cos90_bounds : (-0.494 : ℝ) < Real.cos 90 ∧ Real.cos 90 < -0.442 :=
  (cos_sin_90_bounds_aux (22.5 - 7 * Real.pi) (by push_cast; ring)
    q90_bounds.1 q90_bounds.2).1

/-- `sin 90` (ninety *radians*) lies in `(0.843, 0.906)`. -/
theorem sin90_bounds : (0.843 : ℝ) < Real.sin 90 ∧ Real.sin 90 < 0.906 :=
  (cos_sin_90_bounds_aux (22.5 - 7 * Real.pi) (by push_cast; ring)
    q90_bounds.1 q90_bounds.2).2

/-- None of the four axes the source actually tests separates the two
disjoint squares: each inequality needed holds for every pair
`(c, s)` with `c` in `(-0.494, -0.442)` and `s` in `(0.843, 0.906)`. -/
theorem key_nonsep :
    ∀ ax ∈ [(⟨Real.cos 90, -Real.sin 90⟩ : Vec2 ℝ), ⟨Real.sin 90, Real.cos 90⟩,
      ⟨-Real.cos 90, Real.sin 90⟩, ⟨-Real.sin 90, -Real.cos 90⟩],
      ¬separatedOn sqA sqB ax := by
  obtain ⟨hcl, hcu⟩ := cos90_bounds
  obtain ⟨hsl, hsu⟩ := sin90_bounds
  intro ax hax
  simp only [List.mem_cons, List.not_mem_nil, or_false] at hax
  rcases hax with rfl | rfl | rfl | rfl
  · exact not_separatedOn_of_wit _ _ _ ⟨0, 0⟩ ⟨1, 1⟩ ⟨6 / 5, 0⟩ ⟨6 / 5, 0⟩
      (by simp [sqA]) (by simp [sqA]) (by simp [sqB]) (by simp [sqB])
      (by simp only [Vec2.dot]; nlinarith) (by simp only [Vec2.dot]; nlinarith)
  · exact not_separatedOn_of_wit _ _ _ ⟨1, 0⟩ ⟨0, 1⟩ ⟨6 / 5, 1⟩ ⟨11 / 5, 0⟩
      (by simp [sqA]) (by simp [sqA]) (by simp [sqB]) (by simp [sqB])
      (by simp only [Vec2.dot]; nlinarith) (by simp only [Vec2.dot]; nlinarith)
  · exact not_separatedOn_of_wit _ _ _ ⟨1, 1⟩ ⟨0, 0⟩ ⟨6 / 5, 0⟩ ⟨6 / 5, 0⟩
      (by simp [sqA]) (by simp [sqA]) (by simp [sqB]) (by simp [sqB])
      (by simp only [Vec2.dot]; nlinarith) (by simp only [Vec2.dot]; nlinarith)
  · exact not_separatedOn_of_wit _ _ _ ⟨0, 1⟩ ⟨1, 0⟩ ⟨11 / 5, 0⟩ ⟨6 / 5, 1⟩
      (by simp [sqA]) (by simp [sqA]) (by simp [sqB]) (by simp [sqB])
      (by simp only [Vec2.dot]; nlinarith) (by simp only [Vec2.dot]; nlinarith)

/-- The source's SAT test reports an overlap for the two disjoint unit
squares. -/
theorem sat_code_sqAB : sat_collision_detect sqA sqB := by
  intro ax hax
  rw [sat_axes_sqA, sat_axes_sqB] at hax
  rcases List.mem_append.1 hax with h | h
  · exact key_nonsep ax h
  · exact key_nonsep ax h

/-- The specification's SAT test correctly separates the squares on the
outward normal `(1, 0)` of `sqA`'s right edge: the projections are
`[0, 1]` and `[1.2, 2.2]`. -/
theorem not_sat_spec_sqAB : ¬sat_spec sqA sqB := by
  intro h
  have hm : (⟨1, 0⟩ : Vec2 ℝ) ∈ sat_spec_axes sqA ++ sat_spec_axes sqB := by
    refine List.mem_append.2 (Or.inl ?_)
    norm_num [sat_spec_axes, sqA, List.range_succ]
  have hsep : separatedOn sqA sqB ⟨1, 0⟩ := by
    unfold separatedOn
    left
    norm_num [project, sqA, sqB, Vec2.dot]
  exact h _ hm hsep

/-- C7: the claim says the overlap test projects onto each edge's outward
normal and reports separation accordingly.  The source instead rotates
each edge vector by `rotate_rad(-90.)` — minus ninety *radians*, not
degrees — so the tested axes are the edge directions turned by about
`-76.6` degrees rather than the edge normals.  On the two disjoint
unit squares `sqA` and `sqB` (gap `0.2` along the x-axis) the code's test
reports an overlap, while the claim's edge-normal test separates them:
the code diverges from the claimed behaviour. -/
theorem C7_sat_axes_are_not_edge_normals :
    sat_collision_detect sqA sqB ∧ ¬sat_spec sqA sqB :=
  ⟨sat_code_sqAB, not_sat_spec_sqAB⟩

theorem yxLe_antisymm {a b : Vec2 K} (hab : yxLe a b) (hba : yxLe b a) : a = b := by
  unfold yxLe at *
  rcases hab with h | ⟨h, h'⟩ <;> rcases hba with g | ⟨g, g'⟩
  · exact absurd (h.trans g) (lt_irrefl _)
  · exact absurd h (by rw [g]; exact lt_irrefl _)
  · exact absurd g (by rw [h]; exact lt_irrefl _)
  · exact Vec2.ext (le_antisymm h' g') h

theorem yxLt_of_le_ne {a b : Vec2 K} (hab : yxLe a b) (hne : a ≠ b) : yxLt a b := by
  rcases hab with h | ⟨h, h'⟩
  · exact Or.inl h
  · refine Or.inr ⟨h, lt_of_le_of_ne h' fun hx => hne (Vec2.ext hx h)⟩

theorem yxLt_trans {a b c : Vec2 K} (hab : yxLt a b) (hbc : yxLt b c) : yxLt a c := by
  unfold yxLt at *
  rcases hab with h | ⟨h, h'⟩ <;> rcases hbc with g | ⟨g, g'⟩
  · exact Or.inl (h.trans g)
  · exact Or.inl (g ▸ h)
  · exact Or.inl (h ▸ g)
  · exact Or.inr ⟨h.trans g, h'.trans g'⟩

theorem yxLt_irrefl (a : Vec2 K) : ¬yxLt a a := by
  unfold yxLt; rintro (h | ⟨-, h⟩) <;> exact lt_irrefl _ h

theorem yxLt_total {a b : Vec2 K} (hne : a ≠ b) : yxLt a b ∨ yxLt b a := by
  rcases total_of yxLe a b with h | h
  · exact Or.inl (yxLt_of_le_ne h hne)
  · exact Or.inr (yxLt_of_le_ne h (Ne.symm hne))

/-! dedupConsec facts -/
theorem dedupConsec_sublist {α : Type} [DecidableEq α] :
    ∀ l : List α, (dedupConsec l).Sublist l
  | [] => List.Sublist.refl _
  | [a] => List.Sublist.refl _
  | a :: b :: l => by
    unfold dedupConsec
    split_ifs with h
    · exact (dedupConsec_sublist (b :: l)).trans (List.sublist_cons_self a _)
    · exact (dedupConsec_sublist (b :: l)).cons₂ a

theorem mem_dedupConsec {α : Type} [DecidableEq α] :
    ∀ {l : List α} {x : α}, x ∈ dedupConsec l ↔ x ∈ l
  | [], x => Iff.rfl
  | [a], x => Iff.rfl
  | a :: b :: l, x => by
    unfold dedupConsec
    split_ifs with h
    · subst h
      rw [mem_dedupConsec]
      simp [List.mem_cons]
    · simp only [List.mem_cons, mem_dedupConsec (l := b :: l)]

theorem dedupConsec_cons {α : Type} [DecidableEq α] :
    ∀ (b : α) (l : List α), ∃ t, dedupConsec (b :: l) = b :: t
  | b, [] => ⟨[], rfl⟩
  | b, c :: l => by
    unfold dedupConsec
    split_ifs with h
    · subst h
      exact dedupConsec_cons b l
    · exact ⟨dedupConsec (c :: l), rfl⟩

theorem dedupConsec_chain'_ne {α : Type} [DecidableEq α] :
    ∀ l : List α, (dedupConsec l).Chain' (· ≠ ·)
  | [] => List.chain'_nil
  | [a] => List.chain'_singleton a
  | a :: b :: l => by
    unfold dedupConsec
    split_ifs with h
    · exact dedupConsec_chain'_ne (b :: l)
    · have hd := dedupConsec_chain'_ne (b :: l)
      obtain ⟨t, ht⟩ := dedupConsec_cons b l
      refine List.chain'_cons'.2 ⟨?_, hd⟩
      intro y hy
      rw [ht] at hy
      simp only [List.head?_cons, Option.mem_def, Option.some.injEq] at hy
      subst hy
      exact h

/-- Adjacent `yxLe` plus adjacent distinctness give adjacent `yxLt`. -/
theorem chain'_yxLt_of : ∀ {m : List (Vec2 K)},
    m.Chain' yxLe → m.Chain' (· ≠ ·) → m.Chain' yxLt
  | [], _, _ => List.chain'_nil
  | [a], _, _ => List.chain'_singleton a
  | a :: b :: m, hle, hne => by
    rw [List.chain'_cons] at hle hne ⊢
    exact ⟨yxLt_of_le_ne hle.1 hne.1, chain'_yxLt_of hle.2 hne.2⟩

/-- A `yxLe`-sorted list deduplicates to a strictly `yxLt`-sorted list. -/
theorem dedupConsec_pairwise_yxLt {l : List (Vec2 K)} (hs : l.Pairwise yxLe) :
    (dedupConsec l).Pairwise yxLt := by
  have hsub := dedupConsec_sublist l
  have hle : (dedupConsec l).Pairwise yxLe := hs.sublist hsub
  have hne := dedupConsec_chain'_ne l
  have hchain : (dedupConsec l).Chain' yxLt :=
    chain'_yxLt_of ((List.chain'_iff_pairwise (R := yxLe)).2 hle) hne
  have : IsTrans (Vec2 K) yxLt := ⟨fun _ _ _ => yxLt_trans⟩
  exact (List.chain'_iff_pairwise (R := yxLt)).1 hchain

/-- Two distinct members of a list form a two-element sublist one way or
the other. -/
theorem two_mem_sublist_or {α : Type} {x y : α} :
    ∀ {l : List α}, x ∈ l → y ∈ l → x ≠ y →
      ([x, y].Sublist l ∨ [y, x].Sublist l) := by
  intro l
  induction l with
  | nil => intro h; cases h
  | cons a l ih =>
    intro hx hy hne
    rcases List.mem_cons.1 hx with rfl | hx'
    · have hy' : y ∈ l := by
        rcases List.mem_cons.1 hy with rfl | h
        · exact absurd rfl hne
        · exact h
      exact Or.inl (((List.singleton_sublist).2 hy').cons₂ x)
    · rcases List.mem_cons.1 hy with rfl | hy'
      · exact Or.inr (((List.singleton_sublist).2 hx').cons₂ y)
      · rcases ih hx' hy' hne with h | h
        · exact Or.inl (h.cons a)
        · exact Or.inr (h.cons a)

/-- In a duplicate-free list a two-element sublist determines the order:
both orders force the elements equal. -/
theorem sublist_pair_nodup_eq {α : Type} {x y : α} :
    ∀ {l : List α}, l.Nodup → [x, y].Sublist l → [y, x].Sublist l → x = y := by
  intro l
  induction l with
  | nil => intro _ h; cases h
  | cons a l ih =>
    intro hnd h1 h2
    rw [List.nodup_cons] at hnd
    cases h1 with
    | cons _ h1' =>
      cases h2 with
      | cons _ h2' => exact ih hnd.2 h1' h2'
      | cons₂ _ h2' => exact absurd (h1'.subset (by simp)) hnd.1
    | cons₂ _ h1' =>
      cases h2 with
      | cons _ h2' => exact absurd (h2'.subset (by simp)) hnd.1
      | cons₂ _ h2' => rfl

/-! ### The atan2 comparator: totality, transitivity, and upper facts -/
theorem cross_antisymm (d e : Vec2 K) : Vec2.cross e d = -Vec2.cross d e := by
  simp [Vec2.cross]; ring

/-- The quadrant classification of `angleClass`, with its defining
property. -/
theorem angleClass_cases (d : Vec2 K) :
    (angleClass d = 0 ∧ d.y < 0) ∨ (angleClass d = 1 ∧ d.y = 0 ∧ 0 ≤ d.x) ∨
      (angleClass d = 2 ∧ 0 < d.y) ∨ (angleClass d = 3 ∧ d.y = 0 ∧ d.x < 0) := by
  unfold angleClass
  split_ifs with h1 h2 h3
  · exact Or.inl ⟨rfl, h1⟩
  · exact Or.inr (Or.inl ⟨rfl, h2⟩)
  · exact Or.inr (Or.inr (Or.inl ⟨rfl, h3⟩))
  · push_neg at h1 h2 h3
    have hy : d.y = 0 := le_antisymm h3 h1
    exact Or.inr (Or.inr (Or.inr ⟨rfl, hy, h2 hy⟩))

theorem y_neg_of_angleClass_zero {d : Vec2 K} (h : angleClass d = 0) : d.y < 0 := by
  rcases angleClass_cases d with ⟨hc, hp⟩ | ⟨hc, hp⟩ | ⟨hc, hp⟩ | ⟨hc, hp⟩ <;>
    first
    | exact hp
    | · rw [h] at hc; exact absurd hc (by decide)

theorem y_pos_of_angleClass_two {d : Vec2 K} (h : angleClass d = 2) : 0 < d.y := by
  rcases angleClass_cases d with ⟨hc, hp⟩ | ⟨hc, hp⟩ | ⟨hc, hp⟩ | ⟨hc, hp⟩ <;>
    first
    | exact hp
    | · rw [h] at hc; exact absurd hc (by decide)

theorem xaxis_of_angleClass_one {d : Vec2 K} (h : angleClass d = 1) :
    d.y = 0 ∧ 0 ≤ d.x := by
  rcases angleClass_cases d with ⟨hc, hp⟩ | ⟨hc, hp⟩ | ⟨hc, hp⟩ | ⟨hc, hp⟩ <;>
    first
    | exact hp
    | · rw [h] at hc; exact absurd hc (by decide)

/-- The linear identity behind transitivity of the cross-sign comparison
within an open half plane. -/
theorem cross_trans_key (d e f : Vec2 K) :
    e.y * Vec2.cross d f = f.y * Vec2.cross d e + d.y * Vec2.cross e f := by
  simp [Vec2.cross]; ring

/-! ### Upper directions -/
theorem uppr_y_nonneg {d : Vec2 K} (h : uppr d) : 0 ≤ d.y := by
  rcases h with h | ⟨h, -⟩
  · exact le_of_lt h
  · exact le_of_eq h.symm

theorem uppr_ne_zero {d : Vec2 K} (h : uppr d) : d ≠ 0 := by
  rintro rfl
  rcases h with h | ⟨-, h⟩ <;> simp at h

theorem uppr_angleClass {d : Vec2 K} (h : uppr d) :
    angleClass d = 1 ∨ angleClass d = 2 := by
  rcases h with h | ⟨h, h'⟩
  · right
    unfold angleClass
    rw [if_neg (by linarith), if_neg (by rintro ⟨h0, -⟩; linarith), if_pos h]
  · left
    unfold angleClass
    rw [if_neg (by linarith), if_pos ⟨h, le_of_lt h'⟩]

theorem cross_nonneg_of_atan2le_uppr {d e : Vec2 K} (hd : uppr d) (he : uppr e)
    (h : atan2le d e) : 0 ≤ Vec2.cross d e := by
  rcases uppr_angleClass hd with hcd | hcd <;> rcases uppr_angleClass he with hce | hce
  · obtain ⟨hdy, -⟩ := xaxis_of_angleClass_one hcd
    obtain ⟨hey, -⟩ := xaxis_of_angleClass_one hce
    simp [Vec2.cross, hdy, hey]
  · obtain ⟨hdy, hdx⟩ := xaxis_of_angleClass_one hcd
    have hey := y_pos_of_angleClass_two hce
    have hdx' : 0 < d.x := by
      rcases hd with h' | ⟨-, h'⟩
      · rw [hdy] at h'; exact absurd h' (lt_irrefl _)
      · exact h'
    have : Vec2.cross d e = d.x * e.y := by simp [Vec2.cross, hdy]
    rw [this]
    positivity
  · exfalso
    rcases h with h | ⟨h, -⟩
    · rw [hcd, hce] at h; exact absurd h (by decide)
    · rw [hcd, hce] at h; exact absurd h (by decide)
  · rcases h with h | ⟨-, h'⟩
    · rw [hcd, hce] at h; exact absurd h (by decide)
    · exact h' (Or.inr hcd)

theorem classes_eq_of_cross_zero_uppr {d e : Vec2 K} (hd : uppr d) (he : uppr e)
    (h : Vec2.cross d e = 0) : angleClass d = angleClass e := by
  rcases uppr_angleClass hd with hcd | hcd <;> rcases uppr_angleClass he with hce | hce <;>
    rw [hcd, hce]
  · exfalso
    obtain ⟨hdy, -⟩ := xaxis_of_angleClass_one hcd
    have hey := y_pos_of_angleClass_two hce
    have hdx : 0 < d.x := by
      rcases hd with h' | ⟨-, h'⟩
      · rw [hdy] at h'; exact absurd h' (lt_irrefl _)
      · exact h'
    have hc : Vec2.cross d e = d.x * e.y := by simp [Vec2.cross, hdy]
    rw [hc] at h
    nlinarith
  · exfalso
    have hdy := y_pos_of_angleClass_two hcd
    obtain ⟨hey, -⟩ := xaxis_of_angleClass_one hce
    have hex : 0 < e.x := by
      rcases he with h' | ⟨-, h'⟩
      · rw [hey] at h'; exact absurd h' (lt_irrefl _)
      · exact h'
    have hc : Vec2.cross d e = -(d.y * e.x) := by simp only [Vec2.cross, hey]; ring
    rw [hc] at h
    nlinarith

theorem cross_pos_trans_uppr {u v w : Vec2 K} (hu : uppr u) (hv : uppr v) (hw : uppr w)
    (h1 : 0 < Vec2.cross u v) (h2 : 0 < Vec2.cross v w) : 0 < Vec2.cross u w := by
  rcases hv with hv | ⟨hv0, hvx⟩
  · have hk := cross_trans_key u v w
    have huy := uppr_y_nonneg hu
    rcases hw with hw | ⟨hw0, hwx⟩
    · nlinarith
    · exfalso
      have : Vec2.cross v w = -(v.y * w.x) := by simp only [Vec2.cross, hw0]; ring
      nlinarith
  · exfalso
    have hc : Vec2.cross u v = -(u.y * v.x) := by simp only [Vec2.cross, hv0]; ring
    rcases hu with hu | ⟨hu0, -⟩
    · nlinarith
    · rw [hc, hu0] at h1
      simp at h1

/-! ### The angular sort produces the processing order `ole` -/
theorem insertionSort_angle_pairwise_ole (p0 : Vec2 K) (rest : List (Vec2 K))
    (hpw : rest.Pairwise yxLt) (hup : ∀ x ∈ rest, uppr (x - p0)) :
    (rest.insertionSort (angle_about p0)).Pairwise (ole p0) := by
  have hnd : rest.Nodup := by
    refine hpw.imp ?_
    intro a b h he
    exact yxLt_irrefl b (he ▸ h)
  have hndsrt : (rest.insertionSort (angle_about p0)).Nodup :=
    ((List.perm_insertionSort _ _).nodup_iff).2 hnd
  have hsorted : (rest.insertionSort (angle_about p0)).Pairwise (angle_about p0) :=
    List.sorted_insertionSort _ _
  rw [List.pairwise_iff_forall_sublist]
  intro x y hsub
  have hx : x ∈ rest :=
    (List.mem_insertionSort _).1 (hsub.subset (by simp))
  have hy : y ∈ rest :=
    (List.mem_insertionSort _).1 (hsub.subset (by simp))
  have hxy : x ≠ y := by
    rintro rfl
    have := hndsrt.sublist hsub
    simp at this
  have hat : atan2le (x - p0) (y - p0) :=
    List.pairwise_iff_forall_sublist.1 hsorted hsub
  have hcr : 0 ≤ Vec2.cross (x - p0) (y - p0) :=
    cross_nonneg_of_atan2le_uppr (hup x hx) (hup y hy) hat
  rcases lt_or_eq_of_le hcr with h | h
  · exact Or.inl h
  · refine Or.inr ⟨h.symm, ?_⟩
    rcases two_mem_sublist_or hx hy hxy with hp | hp
    · exact List.pairwise_iff_forall_sublist.1 hpw hp
    · exfalso
      have hat' : angle_about p0 y x := by
        refine Or.inr ⟨(classes_eq_of_cross_zero_uppr (hup x hx) (hup y hy) h.symm).symm,
          fun _ => ?_⟩
        rw [cross_antisymm]
        linarith
      have hsub' := List.pair_sublist_insertionSort hat' hp
      exact hxy (sublist_pair_nodup_eq hndsrt hsub hsub')

/-! ### Plane geometry helpers -/
theorem cross_self (v : Vec2 K) : Vec2.cross v v = 0 := by
  simp only [Vec2.cross]; ring

theorem dot_self_pos {u : Vec2 K} (h : u ≠ 0) : 0 < Vec2.dot u u := by
  by_contra h'
  push_neg at h'
  have hx : u.x = 0 := by
    simp only [Vec2.dot] at h'
    nlinarith [sq_nonneg u.x, sq_nonneg u.y, sq_nonneg (u.x + u.y), sq_nonneg (u.x - u.y)]
  have hy : u.y = 0 := by
    simp only [Vec2.dot] at h'
    nlinarith [sq_nonneg u.x, sq_nonneg u.y, sq_nonneg (u.x + u.y), sq_nonneg (u.x - u.y)]
  exact h (Vec2.ext (by simpa using hx) (by simpa using hy))

/-- A vector with zero cross product against a nonzero `u` is a scalar
multiple of `u`, with the scalar recovered from the dot product. -/
theorem collinear_decomp {u w : Vec2 K} (hu : u ≠ 0) (h : Vec2.cross u w = 0) :
    w = (Vec2.dot u w / Vec2.dot u u) • u := by
  have hd := dot_self_pos hu
  have h' : u.x * w.y - u.y * w.x = 0 := h
  have hd' : 0 < u.x * u.x + u.y * u.y := hd
  refine Vec2.ext ?_ ?_ <;> simp only [Vec2.smul_x, Vec2.smul_y, Vec2.dot] <;>
    field_simp
  · linear_combination (-u.y) * h'
  · linear_combination u.x * h'

/-- Convex combination of three members stays in a convex set. -/
theorem convex_combo3_mem {s : Set (Vec2 K)} (hconv : Convex K s) {p a q : Vec2 K}
    (hp : p ∈ s) (ha : a ∈ s) (hq : q ∈ s) {c1 c2 c3 : K}
    (h1 : 0 ≤ c1) (h2 : 0 ≤ c2) (h3 : 0 ≤ c3) (hs : c1 + c2 + c3 = 1) :
    c1 • p + c2 • a + c3 • q ∈ s := by
  have h0 : ∀ i ∈ (Finset.univ : Finset (Fin 3)), 0 ≤ (![c1, c2, c3] : Fin 3 → K) i := by
    intro i _
    fin_cases i <;> simpa
  have hsum : (∑ i ∈ (Finset.univ : Finset (Fin 3)), (![c1, c2, c3] : Fin 3 → K) i) = 1 := by
    simp [Fin.sum_univ_three]
    linarith
  have hz : ∀ i ∈ (Finset.univ : Finset (Fin 3)),
      (![p, a, q] : Fin 3 → Vec2 K) i ∈ s := by
    intro i _
    fin_cases i <;> simpa
  have hmem := hconv.sum_mem h0 hsum hz
  simpa [Fin.sum_univ_three] using hmem

/-- The popped vertex `b` is a convex combination of `p0`, the vertex `a`
below it, and the incoming point `q`, provided `b` lies strictly left of
`p0 → a` continued, weakly left of `p0 → q`, and the turn `a → b → q` is
not strictly counter-clockwise. -/
theorem pop_mem_convexHull {p0 a q b : Vec2 K} {s : Set (Vec2 K)}
    (hp0 : p0 ∈ convexHull K s) (ha : a ∈ convexHull K s) (hq : q ∈ convexHull K s)
    (hγ : 0 < Vec2.cross (a - p0) (b - p0))
    (hβ : 0 ≤ Vec2.cross (b - p0) (q - p0))
    (hα : Vec2.cross (b - a) (q - a) ≤ 0) :
    b ∈ convexHull K s := by
  set cA := Vec2.cross (a - p0) (q - p0) with hcA
  set c1 := -Vec2.cross (b - a) (q - a) with hc1
  set c2 := Vec2.cross (b - p0) (q - p0) with hc2
  set c3 := Vec2.cross (a - p0) (b - p0) with hc3
  have hsum : cA = c1 + c2 + c3 := by
    rw [hcA, hc1, hc2, hc3]
    simp only [Vec2.cross, Vec2.sub_x, Vec2.sub_y]
    ring
  have hApos : 0 < cA := by
    rw [hsum]
    have : 0 ≤ c1 := by rw [hc1]; linarith
    linarith
  have hcomb : cA • b = c1 • p0 + c2 • a + c3 • q := by
    rw [hcA, hc1, hc2, hc3]
    refine Vec2.ext ?_ ?_ <;>
      simp only [Vec2.cross, Vec2.smul_x, Vec2.smul_y, Vec2.add_x, Vec2.add_y,
        Vec2.sub_x, Vec2.sub_y, Vec2.neg_x, Vec2.neg_y, neg_sub] <;>
      ring
  have hA0 : cA ≠ 0 := ne_of_gt hApos
  have hb : b = (c1 / cA) • p0 + (c2 / cA) • a + (c3 / cA) • q := by
    have hx := congrArg Vec2.x hcomb
    have hy := congrArg Vec2.y hcomb
    simp only [Vec2.smul_x, Vec2.smul_y, Vec2.add_x, Vec2.add_y] at hx hy
    refine Vec2.ext ?_ ?_
    · simp only [Vec2.smul_x, Vec2.add_x]
      field_simp
      linear_combination hx
    · simp only [Vec2.smul_y, Vec2.add_y]
      field_simp
      linear_combination hy
  rw [hb]
  have hc1nn : 0 ≤ c1 := by rw [hc1]; linarith
  exact convex_combo3_mem (convex_convexHull K s) hp0 ha hq
    (div_nonneg hc1nn (le_of_lt hApos)) (div_nonneg hβ (le_of_lt hApos))
    (div_nonneg (le_of_lt hγ) (le_of_lt hApos))
    (by field_simp; linarith)

/-- A point of the segment from `p0` to `q` is in any convex hull
containing the endpoints. -/
theorem between_mem_convexHull {p0 q b : Vec2 K} {s : Set (Vec2 K)}
    (hp0 : p0 ∈ convexHull K s) (hq : q ∈ convexHull K s) {m : K}
    (h0 : 0 ≤ m) (h1 : m ≤ 1) (heq : b - p0 = m • (q - p0)) :
    b ∈ convexHull K s := by
  have hb : b = (1 - m) • p0 + m • q + (0 : K) • p0 := by
    have hx := congrArg Vec2.x heq
    have hy := congrArg Vec2.y heq
    simp only [Vec2.smul_x, Vec2.smul_y, Vec2.sub_x, Vec2.sub_y] at hx hy
    refine Vec2.ext ?_ ?_ <;>
      simp only [Vec2.smul_x, Vec2.smul_y, Vec2.add_x, Vec2.add_y] <;> linarith
  rw [hb]
  exact convex_combo3_mem (convex_convexHull K s) hp0 hq hp0
    (by linarith) h0 (le_refl 0) (by ring)

theorem tie_dot_pos {p0 b q : Vec2 K} (huq : uppr (q - p0)) {m : K} (h0 : 0 < m)
    (heq : b - p0 = m • (q - p0)) : 0 < Vec2.dot (b - p0) (q - p0) := by
  have hq0 : q - p0 ≠ 0 := uppr_ne_zero huq
  have hd := dot_self_pos hq0
  have hrw : Vec2.dot (b - p0) (q - p0) = m * Vec2.dot (q - p0) (q - p0) := by
    rw [heq]
    simp only [Vec2.dot, Vec2.smul_x, Vec2.smul_y]
    ring
  rw [hrw]
  positivity

/-- If `b` lies strictly between `p0` and `q` on their common ray and `a`
is strictly angularly before `b`, the scan's pop test fires at
`(b, a, q)`. -/
theorem tie_pop_cross_neg {p0 a b q : Vec2 K} {m : K} (h0 : 0 < m) (h1 : m < 1)
    (heq : b - p0 = m • (q - p0)) (hg : 0 < Vec2.cross (a - p0) (b - p0)) :
    Vec2.cross (b - a) (q - a) < 0 := by
  have hex := congrArg Vec2.x heq
  have hey := congrArg Vec2.y heq
  simp only [Vec2.sub_x, Vec2.sub_y, Vec2.smul_x, Vec2.smul_y] at hex hey
  have hkey : m * Vec2.cross (b - a) (q - a) =
      -((1 - m) * Vec2.cross (a - p0) (b - p0)) := by
    simp only [Vec2.cross, Vec2.sub_x, Vec2.sub_y]
    linear_combination (m * (q.y - a.y) - (1 - m) * (a.y - p0.y)) * hex +
      (-(m * (q.x - a.x)) + (1 - m) * (a.x - p0.x)) * hey
  nlinarith

/-- The stopped state cannot be collinear-backward: if the pop test sees
zero cross with negative dot then `a` would lie strictly between `q` and
`b`, putting `q` strictly angularly before `b` and contradicting the
processing order. -/
theorem backward_impossible {p0 a b q : Vec2 K}
    (hg : 0 < Vec2.cross (a - p0) (b - p0))
    (hole : 0 ≤ Vec2.cross (b - p0) (q - p0))
    (hcr : Vec2.cross (b - a) (q - a) = 0)
    (hdot : Vec2.dot (b - a) (q - a) < 0) : False := by
  have hba : b - a ≠ 0 := by
    intro h
    have hab : b = a := sub_eq_zero.1 h
    rw [hab, cross_self] at hg
    exact absurd hg (lt_irrefl _)
  have hw := collinear_decomp hba hcr
  set ν := Vec2.dot (b - a) (q - a) / Vec2.dot (b - a) (b - a) with hν
  have hνneg : ν < 0 := div_neg_of_neg_of_pos hdot (dot_self_pos hba)
  have hqx := congrArg Vec2.x hw
  have hqy := congrArg Vec2.y hw
  simp only [Vec2.sub_x, Vec2.sub_y, Vec2.smul_x, Vec2.smul_y] at hqx hqy
  have hkey : Vec2.cross (a - p0) (b - p0) * (1 - ν) =
      Vec2.cross (q - p0) (b - p0) := by
    simp only [Vec2.cross, Vec2.sub_x, Vec2.sub_y]
    linear_combination (-(b.y - p0.y)) * hqx + (b.x - p0.x) * hqy
  have hanti : Vec2.cross (q - p0) (b - p0) = -Vec2.cross (b - p0) (q - p0) :=
    cross_antisymm _ _
  nlinarith

/-- Two points on a common `uppr` ray from `p0` in `yxLt` order: the
earlier one lies strictly between `p0` and the later one. -/
theorem collinear_upper_between {p0 b q : Vec2 K}
    (hub : uppr (b - p0)) (huq : uppr (q - p0))
    (hcr : Vec2.cross (b - p0) (q - p0) = 0) (hlt : yxLt b q) :
    ∃ m : K, 0 < m ∧ m < 1 ∧ b - p0 = m • (q - p0) := by
  have hq0 : q - p0 ≠ 0 := uppr_ne_zero huq
  have hcr' : Vec2.cross (q - p0) (b - p0) = 0 := by
    rw [cross_antisymm, hcr]
    ring
  have hw := collinear_decomp hq0 hcr'
  set m := Vec2.dot (q - p0) (b - p0) / Vec2.dot (q - p0) (q - p0) with hm
  have hBy := congrArg Vec2.y hw
  have hBx := congrArg Vec2.x hw
  simp only [Vec2.sub_x, Vec2.sub_y, Vec2.smul_x, Vec2.smul_y] at hBy hBx
  have hcrc : (b.x - p0.x) * (q.y - p0.y) - (b.y - p0.y) * (q.x - p0.x) = 0 := hcr
  have hub' : 0 < b.y - p0.y ∨ (b.y - p0.y = 0 ∧ 0 < b.x - p0.x) := hub
  have huq' : 0 < q.y - p0.y ∨ (q.y - p0.y = 0 ∧ 0 < q.x - p0.x) := huq
  have hlt' : b.y < q.y ∨ (b.y = q.y ∧ b.x < q.x) := hlt
  refine ⟨m, ?_, ?_, hw⟩
  · rcases huq' with hqy | ⟨hqy0, hqx⟩
    · rcases hub' with hby | ⟨hby0, hbx⟩
      · nlinarith
      · exfalso
        nlinarith [mul_pos hbx hqy, mul_eq_zero_of_left hby0 (q.x - p0.x)]
    · have hby0 : b.y - p0.y = 0 := by rw [hqy0] at hBy; linarith
      rcases hub' with hby | ⟨-, hbx⟩
      · exact absurd hby (by rw [hby0]; exact lt_irrefl _)
      · nlinarith
  · rcases huq' with hqy | ⟨hqy0, hqx⟩
    · rcases hlt' with h | ⟨h, h'⟩
      · nlinarith
      · exfalso
        have hBy' : b.y - p0.y = q.y - p0.y := by rw [h]
        have hm1 : m = 1 := by
          rw [hBy'] at hBy
          have : (q.y - p0.y) * (1 - m) = 0 := by linarith
          rcases mul_eq_zero.1 this with h0 | h0
          · exact absurd h0 (ne_of_gt hqy)
          · linarith
        rw [hm1, one_mul] at hBx
        linarith
    · have hby0 : b.y - p0.y = 0 := by rw [hqy0] at hBy; linarith
      rcases hlt' with h | ⟨-, h'⟩
      · exfalso
        have : b.y = q.y := by linarith
        rw [this] at h
        exact absurd h (lt_irrefl _)
      · nlinarith

theorem TurnsTF_tail {x : Vec2 K} {l : List (Vec2 K)} (h : TurnsTF (x :: l)) :
    TurnsTF l := by
  match l with
  | [] => exact trivial
  | [a] => exact trivial
  | b :: a :: rest => exact h.2

theorem cross_shift (a b q : Vec2 K) :
    Vec2.cross (b - a) (q - b) = Vec2.cross (b - a) (q - a) := by
  simp only [Vec2.cross, Vec2.sub_x, Vec2.sub_y]
  ring

theorem scanPops_cons_cons (q b a : Vec2 K) (rest : List (Vec2 K)) :
    scanPops q (b :: a :: rest) =
      if popCond (b - a) (q - a) then scanPops q (a :: rest) else b :: a :: rest :=
  rfl

theorem scanPops_single (q x : Vec2 K) : scanPops q [x] = [x] := rfl

/-- The full specification of the scan's inner pop loop.  Starting from a
stack `t ++ [p0]` (top first) whose upper part `t` is strictly angularly
decreasing top-to-bottom and strictly convex, fed a point `q` angularly at
or after every stack element, the loop stops at `t' ++ [p0]` with `t'` a
sub-stack of `t`; pushing `q` preserves strict convexity and strict
angular order, and every element of `t` lies in the convex hull of the
new stack. -/
theorem scanPops_spec (p0 q : Vec2 K) (hq : uppr (q - p0)) :
    ∀ t : List (Vec2 K),
      (∀ x ∈ t, uppr (x - p0)) →
      t.Pairwise (fun b a => 0 < Vec2.cross (a - p0) (b - p0)) →
      TurnsTF (t ++ [p0]) →
      (∀ x ∈ t, ole p0 x q) →
      ∃ t' : List (Vec2 K),
        scanPops q (t ++ [p0]) = t' ++ [p0] ∧
        t'.Sublist t ∧
        TurnsTF (q :: (t' ++ [p0])) ∧
        (q :: t').Pairwise (fun b a => 0 < Vec2.cross (a - p0) (b - p0)) ∧
        (∀ x ∈ t, x ∈ convexHull K {y : Vec2 K | y ∈ q :: (t' ++ [p0])}) := by
  intro t
  induction t with
  | nil =>
    intro _ _ _ _
    refine ⟨[], ?_, List.Sublist.refl _, trivial, List.pairwise_singleton _ _, ?_⟩
    · simp only [List.nil_append]
      exact scanPops_single q p0
    · intro x hx
      cases hx
  | cons b t2 ih =>
    intro hup hpw hturns hole
    have hupb : uppr (b - p0) := hup b (List.mem_cons_self b t2)
    have holeb : ole p0 b q := hole b (List.mem_cons_self b t2)
    cases t2 with
    | nil =>
      by_cases hpc : popCond (b - p0) (q - p0)
      · refine ⟨[], ?_, List.nil_sublist _, trivial, List.pairwise_singleton _ _, ?_⟩
        · simp only [List.cons_append, List.nil_append]
          rw [scanPops_cons_cons, if_pos hpc]
          exact scanPops_single q p0
        · intro x hx
          have hxb : x = b := by simpa using hx
          subst hxb
          rcases holeb with hpos | ⟨hzero, hyx⟩
          · exfalso
            rcases hpc with h | ⟨h, -⟩
            · linarith
            · linarith
          · obtain ⟨m, hm0, hm1, heq⟩ := collinear_upper_between hupb hq hzero hyx
            exact between_mem_convexHull (subset_convexHull K _ (by simp))
              (subset_convexHull K _ (by simp)) (le_of_lt hm0) (le_of_lt hm1) heq
      · have hcrpos : 0 < Vec2.cross (b - p0) (q - p0) := by
          rcases holeb with hpos | ⟨hzero, hyx⟩
          · exact hpos
          · exfalso
            obtain ⟨m, hm0, hm1, heq⟩ := collinear_upper_between hupb hq hzero hyx
            exact hpc (Or.inr ⟨hzero, le_of_lt (tie_dot_pos hq hm0 heq)⟩)
        refine ⟨[b], ?_, List.Sublist.refl _, ?_, ?_, ?_⟩
        · simp only [List.cons_append, List.nil_append]
          rw [scanPops_cons_cons, if_neg hpc]
        · exact ⟨by rw [cross_shift]; exact hcrpos, trivial⟩
        · refine List.pairwise_cons.2 ⟨?_, List.pairwise_singleton _ _⟩
          intro x hx
          have hxb : x = b := by simpa using hx
          subst hxb
          exact hcrpos
        · intro x hx
          have hxb : x = b := by simpa using hx
          subst hxb
          exact subset_convexHull K _ (by simp)
    | cons a t3 =>
      obtain ⟨hb_all, hpw2⟩ := List.pairwise_cons.1 hpw
      have hgam : 0 < Vec2.cross (a - p0) (b - p0) := hb_all a (List.mem_cons_self a t3)
      have hbeta : 0 ≤ Vec2.cross (b - p0) (q - p0) := by
        rcases holeb with hpos | ⟨hzero, -⟩
        · exact le_of_lt hpos
        · exact le_of_eq hzero.symm
      by_cases hpc : popCond (b - a) (q - a)
      · obtain ⟨t', heq', hsub, hturn, hpw', hcont⟩ :=
          ih (fun x hx => hup x (List.mem_cons_of_mem b hx)) hpw2
            (TurnsTF_tail (l := (a :: t3) ++ [p0]) hturns)
            (fun x hx => hole x (List.mem_cons_of_mem b hx))
        refine ⟨t', ?_, hsub.cons b, hturn, hpw', ?_⟩
        · simp only [List.cons_append]
          rw [scanPops_cons_cons, if_pos hpc]
          simpa using heq'
        · intro x hx
          rcases List.mem_cons.1 hx with rfl | hx2
          · refine pop_mem_convexHull (subset_convexHull K _ (by simp))
              (hcont a (List.mem_cons_self a t3)) (subset_convexHull K _ (by simp))
              hgam hbeta ?_
            rcases hpc with h | ⟨h, -⟩
            · exact le_of_lt h
            · exact le_of_eq h
          · exact hcont x hx2
      · have hcr_nonneg : 0 ≤ Vec2.cross (b - a) (q - a) := by
          by_contra h
          exact hpc (Or.inl (lt_of_not_ge h))
        have hcrpos_ba : 0 < Vec2.cross (b - a) (q - a) := by
          rcases lt_or_eq_of_le hcr_nonneg with h | h
          · exact h
          · exfalso
            have hdot : Vec2.dot (b - a) (q - a) < 0 := by
              by_contra hd
              exact hpc (Or.inr ⟨h.symm, le_of_not_lt hd⟩)
            exact backward_impossible hgam hbeta h.symm hdot
        have hcrpos : 0 < Vec2.cross (b - p0) (q - p0) := by
          rcases holeb with hpos | ⟨hzero, hyx⟩
          · exact hpos
          · exfalso
            obtain ⟨m, hm0, hm1, heqm⟩ := collinear_upper_between hupb hq hzero hyx
            have hneg := tie_pop_cross_neg hm0 hm1 heqm hgam
            linarith
        refine ⟨b :: a :: t3, ?_, List.Sublist.refl _, ?_, ?_, ?_⟩
        · simp only [List.cons_append]
          rw [scanPops_cons_cons, if_neg hpc]
        · exact ⟨by rw [cross_shift]; exact hcrpos_ba, hturns⟩
        · refine List.pairwise_cons.2 ⟨?_, hpw⟩
          intro x hx
          rcases List.mem_cons.1 hx with rfl | hx2
          · exact hcrpos
          · exact cross_pos_trans_uppr (hup x hx) hupb hq
              (hb_all x hx2) hcrpos
        · intro x hx
          exact subset_convexHull K _
            (List.mem_cons_of_mem q (List.mem_append_left _ hx))

/-- The scan's outer loop invariant: folding the angularly sorted points
into the stack yields a stack whose upper part is strictly convex and
strictly angularly ordered, drawn from the processed points, and whose
convex hull contains every processed point. -/
theorem graham_fold_inv (p0 : Vec2 K) :
    ∀ (next t : List (Vec2 K)),
      (∀ x ∈ t, uppr (x - p0)) →
      (∀ x ∈ next, uppr (x - p0)) →
      t.Pairwise (fun b a => 0 < Vec2.cross (a - p0) (b - p0)) →
      TurnsTF (t ++ [p0]) →
      (∀ x ∈ next, ∀ y ∈ t, ole p0 y x) →
      next.Pairwise (ole p0) →
      ∃ tf : List (Vec2 K),
        next.foldl (fun s p => p :: scanPops p s) (t ++ [p0]) = tf ++ [p0] ∧
        (∀ x ∈ tf, x ∈ t ∨ x ∈ next) ∧
        (∀ x ∈ tf, uppr (x - p0)) ∧
        tf.Pairwise (fun b a => 0 < Vec2.cross (a - p0) (b - p0)) ∧
        TurnsTF (tf ++ [p0]) ∧
        (∀ x ∈ t, x ∈ convexHull K {y : Vec2 K | y ∈ tf ++ [p0]}) ∧
        (∀ x ∈ next, x ∈ convexHull K {y : Vec2 K | y ∈ tf ++ [p0]}) := by
  intro next
  induction next with
  | nil =>
    intro t hupt _ hpw hturns _ _
    refine ⟨t, rfl, fun x hx => Or.inl hx, hupt, hpw, hturns, ?_, ?_⟩
    · intro x hx
      exact subset_convexHull K _ (List.mem_append_left _ hx)
    · intro x hx
      cases hx
  | cons q next' IH =>
    intro t hupt hupn hpw hturns hnt hnpw
    have hq : uppr (q - p0) := hupn q (List.mem_cons_self q next')
    obtain ⟨hq_all, hnpw'⟩ := List.pairwise_cons.1 hnpw
    obtain ⟨t', heq', hsub, hturn', hpw', hcont'⟩ :=
      scanPops_spec p0 q hq t hupt hpw hturns
        (fun x hx => hnt q (List.mem_cons_self q next') x hx)
    have hstep : (q :: next').foldl (fun s p => p :: scanPops p s) (t ++ [p0]) =
        next'.foldl (fun s p => p :: scanPops p s) ((q :: t') ++ [p0]) := by
      rw [List.foldl_cons, heq']
      rfl
    obtain ⟨tf, heqf, hprov, hupf, hpwf, hturnf, hcontf, hcontn⟩ :=
      IH (q :: t')
        (by
          intro x hx
          rcases List.mem_cons.1 hx with rfl | hx2
          · exact hq
          · exact hupt x (hsub.subset hx2))
        (fun x hx => hupn x (List.mem_cons_of_mem q hx))
        hpw' hturn'
        (by
          intro x hx y hy
          rcases List.mem_cons.1 hy with rfl | hy2
          · exact hq_all x hx
          · exact hnt x (List.mem_cons_of_mem q hx) y (hsub.subset hy2))
        hnpw'
    have hmono : convexHull K {y : Vec2 K | y ∈ q :: (t' ++ [p0])} ⊆
        convexHull K {y : Vec2 K | y ∈ tf ++ [p0]} := by
      refine convexHull_min ?_ (convex_convexHull K _)
      intro z hz
      simp only [Set.mem_setOf_eq] at hz
      rcases List.mem_cons.1 hz with rfl | hz2
      · exact hcontf z (List.mem_cons_self z t')
      · rcases List.mem_append.1 hz2 with hz3 | hz3
        · exact hcontf z (List.mem_cons_of_mem q hz3)
        · have : z = p0 := by simpa using hz3
          subst this
          exact subset_convexHull K _ (List.mem_append_right _ (by simp))
    refine ⟨tf, hstep.trans heqf, ?_, hupf, hpwf, hturnf, ?_, ?_⟩
    · intro x hx
      rcases hprov x hx with hx2 | hx2
      · rcases List.mem_cons.1 hx2 with rfl | hx3
        · exact Or.inr (List.mem_cons_self x next')
        · exact Or.inl (hsub.subset hx3)
      · exact Or.inr (List.mem_cons_of_mem q hx2)
    · intro x hx
      exact hmono (hcont' x hx)
    · intro x hx
      rcases List.mem_cons.1 hx with rfl | hx2
      · exact hcontf x (List.mem_cons_self x t')
      · exact hcontn x hx2

/-! ### Indexed access to the final stack -/
theorem getD_eq_getElem' {α : Type} (l : List α) (d : α) {i : ℕ} (h : i < l.length) :
    l.getD i d = l[i] := by
  rw [List.getD_eq_getElem?_getD, List.getElem?_eq_getElem h]
  rfl

theorem getD_reverse' {α : Type} (l : List α) (d : α) {i : ℕ} (h : i < l.length) :
    l.reverse.getD i d = l.getD (l.length - 1 - i) d := by
  rw [List.getD_eq_getElem?_getD, List.getD_eq_getElem?_getD, List.getElem?_reverse h]

/-- The turn condition of `TurnsTF`, read off at indices (top-first). -/
theorem TurnsTF_getD {s : List (Vec2 K)} (h : TurnsTF s) :
    ∀ j, j + 2 < s.length →
      0 < Vec2.cross (s.getD (j + 1) 0 - s.getD (j + 2) 0)
        (s.getD j 0 - s.getD (j + 1) 0) := by
  induction s with
  | nil =>
    intro j hj
    simp at hj
  | cons x s ih =>
    intro j hj
    cases j with
    | zero =>
      cases s with
      | nil => simp at hj
      | cons b s2 =>
        cases s2 with
        | nil => simp at hj
        | cons a s3 =>
          simpa using h.1
    | succ j2 =>
      simp only [List.getD_cons_succ]
      exact ih (TurnsTF_tail h) j2 (by simp at hj ⊢; omega)

theorem closing_turn {p0 u v : Vec2 K} (h : 0 < Vec2.cross (u - p0) (v - p0)) :
    0 < Vec2.cross (v - u) (p0 - v) := by
  have hrw : Vec2.cross (v - u) (p0 - v) = Vec2.cross (u - p0) (v - p0) := by
    simp only [Vec2.cross, Vec2.sub_x, Vec2.sub_y]
    ring
  rw [hrw]
  exact h

theorem closing_turn2 {p0 u w : Vec2 K} (h : 0 < Vec2.cross (u - p0) (w - p0)) :
    0 < Vec2.cross (p0 - w) (u - p0) := by
  have hrw : Vec2.cross (p0 - w) (u - p0) = Vec2.cross (u - p0) (w - p0) := by
    simp only [Vec2.cross, Vec2.sub_x, Vec2.sub_y]
    ring
  rw [hrw]
  exact h

/-- Every consecutive cyclic triple of the final hull `p0 :: tf.reverse`
turns strictly counter-clockwise: the interior triples are the scan's
stack turns, and the two wrap-around triples close up using the strict
angular order about `p0`. -/
theorem hull_cyclic_getD {p0 : Vec2 K} {tf : List (Vec2 K)}
    (hpw : tf.Pairwise (fun b a => 0 < Vec2.cross (a - p0) (b - p0)))
    (hturns : TurnsTF (tf ++ [p0]))
    (hlen : 2 ≤ tf.length) :
    ∀ i < tf.length + 1,
      0 < Vec2.cross
        ((p0 :: tf.reverse).getD ((i + 1) % (tf.length + 1)) 0 -
          (p0 :: tf.reverse).getD i 0)
        ((p0 :: tf.reverse).getD ((i + 2) % (tf.length + 1)) 0 -
          (p0 :: tf.reverse).getD ((i + 1) % (tf.length + 1)) 0) := by
  have hLs : (p0 :: tf.reverse) = (tf ++ [p0]).reverse := by
    simp
  have hslen : (tf ++ [p0]).length = tf.length + 1 := by simp
  have hget : ∀ i, i < tf.length + 1 →
      (p0 :: tf.reverse).getD i 0 = (tf ++ [p0]).getD (tf.length - i) 0 := by
    intro i hi
    rw [hLs, getD_reverse' _ _ (by omega)]
    congr 1
    omega
  have hgettf : ∀ k, k < tf.length →
      (p0 :: tf.reverse).getD (k + 1) 0 = tf.getD (tf.length - 1 - k) 0 := by
    intro k hk
    rw [List.getD_cons_succ, getD_reverse' _ _ hk]
  intro i hi
  by_cases h1 : i + 2 ≤ tf.length
  · have hm1 : (i + 1) % (tf.length + 1) = i + 1 := Nat.mod_eq_of_lt (by omega)
    have hm2 : (i + 2) % (tf.length + 1) = i + 2 := Nat.mod_eq_of_lt (by omega)
    rw [hm1, hm2, hget i (by omega), hget (i + 1) (by omega), hget (i + 2) (by omega)]
    have hind := TurnsTF_getD hturns (tf.length - i - 2) (by rw [hslen]; omega)
    have e1 : tf.length - i - 2 + 1 = tf.length - (i + 1) := by omega
    have e2 : tf.length - i - 2 + 2 = tf.length - i := by omega
    have e3 : tf.length - i - 2 = tf.length - (i + 2) := by omega
    rw [e1, e2, e3] at hind
    exact hind
  · have hpairs := List.pairwise_iff_getElem.1 hpw
    have hcases : i = tf.length - 1 ∨ i = tf.length := by omega
    rcases hcases with hc | hc
    · subst hc
      have hn2 : 2 ≤ tf.length := hlen
      have hm1 : (tf.length - 1 + 1) % (tf.length + 1) = tf.length :=
        by rw [Nat.sub_add_cancel (by omega)]; exact Nat.mod_eq_of_lt (by omega)
      have hm2 : (tf.length - 1 + 2) % (tf.length + 1) = 0 := by
        have : tf.length - 1 + 2 = tf.length + 1 := by omega
        rw [this, Nat.mod_self]
      rw [hm1, hm2]
      have hL0 : (p0 :: tf.reverse).getD 0 0 = p0 := rfl
      have hLn : (p0 :: tf.reverse).getD tf.length 0 = tf.getD 0 0 := by
        have : tf.length = tf.length - 1 + 1 := by omega
        rw [this, hgettf (tf.length - 1) (by omega)]
        congr 1
        omega
      have hLn1 : (p0 :: tf.reverse).getD (tf.length - 1) 0 = tf.getD 1 0 := by
        have : tf.length - 1 = tf.length - 2 + 1 := by omega
        rw [this, hgettf (tf.length - 2) (by omega)]
        congr 1
        omega
      rw [hL0, hLn, hLn1]
      have hpair := hpairs 0 1 (by omega) (by omega) (by omega)
      rw [← getD_eq_getElem' tf 0 (show 0 < tf.length by omega),
        ← getD_eq_getElem' tf 0 (show 1 < tf.length by omega)] at hpair
      exact closing_turn hpair
    · subst hc
      have hm1 : (tf.length + 1) % (tf.length + 1) = 0 := Nat.mod_self _
      have hm2 : (tf.length + 2) % (tf.length + 1) = 1 := by
        have : tf.length + 2 = (tf.length + 1) + 1 := by omega
        rw [this, Nat.add_mod_left]
        exact Nat.mod_eq_of_lt (by omega)
      rw [hm1, hm2]
      have hL0 : (p0 :: tf.reverse).getD 0 0 = p0 := rfl
      have hLn : (p0 :: tf.reverse).getD tf.length 0 = tf.getD 0 0 := by
        have : tf.length = tf.length - 1 + 1 := by omega
        rw [this, hgettf (tf.length - 1) (by omega)]
        congr 1
        omega
      have hL1 : (p0 :: tf.reverse).getD 1 0 = tf.getD (tf.length - 1) 0 := by
        rw [hgettf 0 (by omega)]
        congr 1
      rw [hL0, hLn, hL1]
      have hpair := hpairs 0 (tf.length - 1) (by omega) (by omega) (by omega)
      rw [← getD_eq_getElem' tf 0 (show 0 < tf.length by omega),
        ← getD_eq_getElem' tf 0 (show tf.length - 1 < tf.length by omega)] at hpair
      exact closing_turn2 hpair

theorem uppr_of_yxLt {p0 x : Vec2 K} (h : yxLt p0 x) : uppr (x - p0) := by
  rcases h with h | ⟨h, h2⟩
  · exact Or.inl (show (0 : K) < x.y - p0.y by linarith)
  · exact Or.inr ⟨show x.y - p0.y = 0 by linarith,
      show (0 : K) < x.x - p0.x by linarith⟩

/-- The master correctness statement for `convex_hull` on a non-empty
input: the hull's vertices come from the input, every input point lies in
their convex hull, there are no duplicates, and (when the hull is a real
polygon) the vertices are listed in strictly convex counter-clockwise
order: strictly increasing polar angle about the bottom-left-most vertex
and a strict left turn at every cyclic triple. -/
theorem convex_hull_spec (pts : List (Vec2 K)) (hne : pts ≠ []) :
    (∀ p ∈ convex_hull pts, p ∈ pts) ∧
    (∀ p ∈ pts, p ∈ convexHull K {q : Vec2 K | q ∈ convex_hull pts}) ∧
    (convex_hull pts).Nodup ∧
    convex_hull pts ≠ [] ∧
    ((convex_hull pts).tail.Pairwise fun a b =>
      0 < Vec2.cross (a - (convex_hull pts).headI) (b - (convex_hull pts).headI)) ∧
    (3 ≤ (convex_hull pts).length → ∀ i < (convex_hull pts).length,
      0 < Vec2.cross
        ((convex_hull pts).getD ((i + 1) % (convex_hull pts).length) 0 -
          (convex_hull pts).getD i 0)
        ((convex_hull pts).getD ((i + 2) % (convex_hull pts).length) 0 -
          (convex_hull pts).getD ((i + 1) % (convex_hull pts).length) 0)) := by
  have hsort : (pts.insertionSort yxLe).Pairwise yxLe :=
    List.sorted_insertionSort yxLe pts
  have hddpw := dedupConsec_pairwise_yxLt hsort
  have hddmem : ∀ x : Vec2 K, x ∈ dedupConsec (pts.insertionSort yxLe) ↔ x ∈ pts := by
    intro x
    rw [mem_dedupConsec, List.mem_insertionSort]
  obtain ⟨w, hw⟩ := List.exists_mem_of_ne_nil pts hne
  rcases hdd : dedupConsec (pts.insertionSort yxLe) with _ | ⟨p0, rest⟩
  · exfalso
    have hwd := (hddmem w).2 hw
    rw [hdd] at hwd
    cases hwd
  rw [hdd] at hddpw
  have hddmem' : ∀ x : Vec2 K, x ∈ p0 :: rest ↔ x ∈ pts := by
    intro x
    rw [← hdd]
    exact hddmem x
  obtain ⟨hp0_all, hrest_pw⟩ := List.pairwise_cons.1 hddpw
  have hupr : ∀ x ∈ rest, uppr (x - p0) := fun x hx => uppr_of_yxLt (hp0_all x hx)
  have hsrt_mem : ∀ x : Vec2 K,
      x ∈ rest.insertionSort (angle_about p0) ↔ x ∈ rest := fun x =>
    List.mem_insertionSort _
  have hole_pw : (rest.insertionSort (angle_about p0)).Pairwise (ole p0) :=
    insertionSort_angle_pairwise_ole p0 rest hrest_pw hupr
  have hsrt_up : ∀ x ∈ rest.insertionSort (angle_about p0), uppr (x - p0) :=
    fun x hx => hupr x ((hsrt_mem x).1 hx)
  obtain ⟨tf, heqf, hprov, hupf, hpwf, hturnf, _, hcontn⟩ :=
    graham_fold_inv p0 (rest.insertionSort (angle_about p0)) []
      (by intro x hx; cases hx) hsrt_up List.Pairwise.nil trivial
      (by intro x hx y hy; cases hy) hole_pw
  have hch : convex_hull pts = p0 :: tf.reverse := by
    have hg : (List.foldl (fun s p => p :: scanPops p s) ([] ++ [p0])
        (List.insertionSort (angle_about p0) rest)).reverse = p0 :: tf.reverse := by
      rw [heqf]
      simp
    unfold convex_hull
    rw [hdd]
    exact hg
  have hsets : {y : Vec2 K | y ∈ tf ++ [p0]} = {q : Vec2 K | q ∈ convex_hull pts} := by
    rw [hch]
    ext z
    simp only [Set.mem_setOf_eq, List.mem_append, List.mem_cons, List.mem_reverse,
      List.mem_singleton]
    tauto
  refine ⟨?_, ?_, ?_, ?_, ?_, ?_⟩
  · intro p hp
    rw [hch] at hp
    rcases List.mem_cons.1 hp with rfl | hp2
    · exact (hddmem' p).1 (List.mem_cons_self _ _)
    · rcases hprov p (List.mem_reverse.1 hp2) with h0 | h0
      · cases h0
      · exact (hddmem' p).1
          (List.mem_cons_of_mem p0 ((hsrt_mem p).1 h0))
  · intro p hp
    rcases List.mem_cons.1 ((hddmem' p).2 hp) with rfl | hp2
    · refine subset_convexHull K _ ?_
      show p ∈ convex_hull pts
      rw [hch]
      exact List.mem_cons_self _ _
    · have := hcontn p ((hsrt_mem p).2 hp2)
      rwa [hsets] at this
  · rw [hch]
    refine List.nodup_cons.2 ⟨?_, ?_⟩
    · intro hmem
      exact uppr_ne_zero (hupf p0 (List.mem_reverse.1 hmem)) (sub_self p0)
    · refine List.nodup_reverse.2 ?_
      refine hpwf.imp ?_
      intro a b h he
      rw [he, cross_self] at h
      exact absurd h (lt_irrefl 0)
  · rw [hch]
    exact List.cons_ne_nil _ _
  · rw [hch]
    simp only [List.tail_cons, List.headI]
    exact List.pairwise_reverse.2 hpwf
  · rw [hch]
    intro hlen i hi
    have hlen' : (p0 :: tf.reverse).length = tf.length + 1 := by simp
    rw [hlen'] at hlen hi ⊢
    exact hull_cyclic_getD hpwf hturnf (by omega) i hi

/-- C8: for every non-empty input, `convex_hull` returns vertices drawn
from the input whose convex hull contains every input point, without
duplicates, and -- whenever the result is a genuine polygon -- in strictly
convex counter-clockwise order: every cyclic triple of consecutive
vertices turns strictly left, and the vertices after the first are in
strictly increasing polar angle about the first (the bottom-left-most
point), so the result is exactly the vertex list of the minimal convex
polygon containing the input.  On the spec's 3x3 grid it returns exactly
the four unit-square corners, counter-clockwise from the origin. -/
theorem C8_convex_hull_minimal_ccw :
    (∀ (K : Type) [_inst : LinearOrderedField K] (pts : List (Vec2 K)), pts ≠ [] →
      (∀ p ∈ convex_hull pts, p ∈ pts) ∧
      (∀ p ∈ pts, p ∈ convexHull K {q : Vec2 K | q ∈ convex_hull pts}) ∧
      (convex_hull pts).Nodup ∧
      convex_hull pts ≠ [] ∧
      ((convex_hull pts).tail.Pairwise fun a b =>
        0 < Vec2.cross (a - (convex_hull pts).headI) (b - (convex_hull pts).headI)) ∧
      (3 ≤ (convex_hull pts).length → ∀ i < (convex_hull pts).length,
        0 < Vec2.cross
          ((convex_hull pts).getD ((i + 1) % (convex_hull pts).length) 0 -
            (convex_hull pts).getD i 0)
          ((convex_hull pts).getD ((i + 2) % (convex_hull pts).length) 0 -
            (convex_hull pts).getD ((i + 1) % (convex_hull pts).length) 0))) ∧
    convex_hull gridPts = [⟨0, 0⟩, ⟨1, 0⟩, ⟨1, 1⟩, ⟨0, 1⟩] := by
  constructor
  · intro K _instK pts hne
    exact convex_hull_spec pts hne
  · norm_num [gridPts, convex_hull, List.insertionSort, List.orderedInsert, yxLe,
      dedupConsec, grahamScan, scanPops, angle_about, atan2le, angleClass, popCond,
      Vec2.cross, Vec2.dot]

/-- Witness for C8 at the concrete triangle `[(0,0), (2,0), (1,3)]`. -/
theorem C8_convex_hull_minimal_ccw_witness :
    ([⟨0, 0⟩, ⟨2, 0⟩, ⟨1, 3⟩] : List (Vec2 ℚ)) ≠ [] ∧
    ((∀ p ∈ convex_hull ([⟨0, 0⟩, ⟨2, 0⟩, ⟨1, 3⟩] : List (Vec2 ℚ)),
        p ∈ ([⟨0, 0⟩, ⟨2, 0⟩, ⟨1, 3⟩] : List (Vec2 ℚ))) ∧
      (convex_hull ([⟨0, 0⟩, ⟨2, 0⟩, ⟨1, 3⟩] : List (Vec2 ℚ))).Nodup) := by
  have h := C8_convex_hull_minimal_ccw.1 ℚ [⟨0, 0⟩, ⟨2, 0⟩, ⟨1, 3⟩] (by simp)
  exact ⟨by simp, h.1, h.2.2.1⟩

end PC
